import Mathlib

/-!
Verification of the `site-scraper` crawl/extraction engine (`src/lib.rs`)
against its natural-language specification.

The Rust source is shallowly embedded below:
* `HashSet<String>` / `HashSet<Cow<str>>` become duplicate-free `List String`
  with insertion-order iteration (`setInsert`, `setExtendList`);
* `HashMap` becomes an association list (`alistGet`, `alistInsert`,
  `alistModifyM`); a failing `get_mut(..).unwrap()` is modelled by
  `alistModifyM` returning `none` (a panic);
* the external collaborators (the HTTP fetch of `worker::Fetch`, the
  `regex_lite` matcher, `nanohtml2text::html2text`) are oracle functions
  gathered in `CrawlEnv`; fetching and HTML parsing are fused: the fetch
  oracle returns an already-parsed document tree (`Node`), because
  `Html::parse_document` is lenient and never fails;
* the `url` crate is modelled on the fragment
  `scheme://authority/path?query#fragment` (no percent-encoding, no
  case-folding, no dot-segment removal — none of the claims depend on
  those), and `scraper::Selector` on the fragment actually used by the
  program: bare tag-name selectors and `tag[attr]` selectors.
-/

namespace SiteScraper

/-! ## Set-as-list and association-list helpers (HashSet / HashMap) -/

/-- `HashSet::insert` on a duplicate-free list kept in insertion order. -/
def setInsert (l : List String) (x : String) : List String :=
  if l.contains x then l else l ++ [x]

/-- `HashSet::extend`: insert every element in order. -/
def setExtendList (l : List String) (xs : List String) : List String :=
  xs.foldl setInsert l

/-- `HashMap::get` on an association list. -/
def alistGet {α : Type} (m : List (String × α)) (k : String) : Option α :=
  match m with
  | [] => none
  | (k', v) :: rest => if k' = k then some v else alistGet rest k

/-- `HashMap::insert` (overwrite an existing key, else append). -/
def alistInsert {α : Type} (m : List (String × α)) (k : String) (v : α) :
    List (String × α) :=
  match m with
  | [] => [(k, v)]
  | (k', v') :: rest =>
    if k' = k then (k', v) :: rest else (k', v') :: alistInsert rest k v

/-- `collect::<HashMap<_, _>>()`: fold the pairs through `alistInsert`. -/
def alistCollect {α : Type} (l : List (String × α)) : List (String × α) :=
  l.foldl (fun m kv => alistInsert m kv.1 kv.2) []

/-- `get_mut(k)` followed by an in-place update computed by `f`.
`none` models a panicking `.unwrap()` on an absent key (or a failure
inside `f`). -/
def alistModifyM {α : Type} (m : List (String × α)) (k : String)
    (f : α → Option α) : Option (List (String × α)) :=
  match m with
  | [] => none
  | (k', v) :: rest =>
    if k' = k then (f v).map (fun v' => (k', v') :: rest)
    else (alistModifyM rest k f).map (fun m' => (k', v) :: m')

/-! ## URL model (fragment of the `url` crate)

`url::Url` parses `scheme://authority/path?query#fragment`; the slice
`&url[..Position::BeforeQuery]` is the serialization up to (excluding)
the `?`.  The modelled fragment requires a literal `://`, an alphabetic
scheme and a non-empty authority, keeps an empty path as `/` (as the
crate does for special schemes), and omits percent-encoding,
case-folding of scheme/host and dot-segment removal, which no claim
depends on. -/

/-- Characters allowed inside the authority component (the scan stops at
the first `/`, `?` or `#`). -/
def authChar (c : Char) : Bool := !(c == '/' || c == '?' || c == '#')

/-- Characters allowed inside the path component (the scan stops at the
first `?` or `#`). -/
def pathChar (c : Char) : Bool := !(c == '?' || c == '#')

structure URLRec where
  scheme : List Char
  authority : List Char
  path : List Char
  query : Option (List Char)
  fragment : Option (List Char)
deriving DecidableEq

/-- Split `path[?query][#fragment]` (the part of a URL after the
authority). -/
def parsePQF (cs : List Char) : List Char × Option (List Char) × Option (List Char) :=
  let path := cs.takeWhile pathChar
  match cs.dropWhile pathChar with
  | '?' :: rest =>
    let q := rest.takeWhile (· != '#')
    match rest.dropWhile (· != '#') with
    | '#' :: f => (path, some q, some f)
    | _ => (path, some q, none)
  | '#' :: f => (path, none, some f)
  | _ => (path, none, none)

/-- `Url::parse` on the modelled fragment. -/
def parseUrlChars (cs : List Char) : Option URLRec :=
  match cs.dropWhile (· != ':') with
  | ':' :: '/' :: '/' :: rest =>
    if cs.takeWhile (· != ':') = [] then none
    else if !(cs.takeWhile (· != ':')).all Char.isAlpha then none
    else if rest.takeWhile authChar = [] then none
    else
      some { scheme := cs.takeWhile (· != ':'),
             authority := rest.takeWhile authChar,
             path := if (parsePQF (rest.dropWhile authChar)).1 = [] then ['/']
               else (parsePQF (rest.dropWhile authChar)).1,
             query := (parsePQF (rest.dropWhile authChar)).2.1,
             fragment := (parsePQF (rest.dropWhile authChar)).2.2 }
  | _ => none

/-- `Url::parse` at the `String` boundary. -/
def parseUrl (s : String) : Option URLRec := parseUrlChars s.data

/-- Serialization of the query/fragment tail. -/
def qfChars (u : URLRec) : List Char :=
  (match u.query with | some q => '?' :: q | none => []) ++
  (match u.fragment with | some f => '#' :: f | none => [])

/-- The characters of `url.as_str()` up to `Position::BeforeQuery`:
scheme, `://`, authority and path. -/
def beforeQueryChars (u : URLRec) : List Char :=
  u.scheme ++ ':' :: '/' :: '/' :: (u.authority ++ u.path)

/-- `url.as_str()` / `url.to_string()`: full serialization. -/
def URLRec.toString (u : URLRec) : String :=
  String.mk (beforeQueryChars u ++ qfChars u)

/-- `normalize_url` (src/lib.rs lines 74-78): parse, slice to
`Position::BeforeQuery`, re-parse, serialize. -/
def normalize_url (url : String) : Option String :=
  match parseUrl url with
  | none => none
  | some u =>
    match parseUrl (String.mk (beforeQueryChars u)) with
    | none => none
    | some u2 => some u2.toString

/-- `Url::join` restricted to references beginning with `/` (the only
kind the program joins, src/lib.rs line 142): the base keeps its scheme
and authority, the reference supplies path, query and fragment. -/
def URLRec.joinSlash (base : URLRec) (ref : String) : URLRec :=
  let pqf := parsePQF ref.data
  { scheme := base.scheme, authority := base.authority,
    path := if pqf.1 = [] then ['/'] else pqf.1,
    query := pqf.2.1, fragment := pqf.2.2 }

/-! ## HTML document model (fragment of `scraper` / `html5ever`)

A parsed document is a tree of text and element nodes.  `Html::select`
yields the matching elements in document (pre-)order. -/

inductive Node where
  | text : String → Node
  | elem : String → List (String × String) → List Node → Node

mutual

/-- All element nodes of the tree in document (pre-)order, the root
element included. -/
def Node.allElems : Node → List Node
  | .text _ => []
  | .elem t a c => .elem t a c :: Node.allElemsList c

def Node.allElemsList : List Node → List Node
  | [] => []
  | n :: ns => Node.allElems n ++ Node.allElemsList ns

end

mutual

/-- `ElementRef::text().collect::<String>()`: concatenation of all
descendant text in document order. -/
def Node.textContent : Node → String
  | .text s => s
  | .elem _ _ c => Node.textContentList c

def Node.textContentList : List Node → String
  | [] => ""
  | n :: ns => Node.textContent n ++ Node.textContentList ns

end

/-- Attribute rendering inside a serialized opening tag. -/
def attrsString (attrs : List (String × String)) : String :=
  attrs.foldl (fun acc kv => acc ++ " " ++ kv.1 ++ "=\"" ++ kv.2 ++ "\"") ""

mutual

/-- `ElementRef::html()`: serialized markup of the node itself
(simplified serializer: no escaping, no void elements). -/
def Node.serialize : Node → String
  | .text s => s
  | .elem t attrs c =>
    "<" ++ t ++ attrsString attrs ++ ">" ++ Node.serializeList c ++ "</" ++ t ++ ">"

def Node.serializeList : List Node → String
  | [] => ""
  | n :: ns => Node.serialize n ++ Node.serializeList ns

end

/-- `ElementRef::inner_html()`: serialized markup of the children only. -/
def Node.innerHtml : Node → String
  | .text _ => ""
  | .elem _ _ c => Node.serializeList c

/-- `element.value().attr(name)`: first attribute of that name. -/
def Node.attrValue (n : Node) (name : String) : Option String :=
  match n with
  | .text _ => none
  | .elem _ attrs _ => (attrs.find? (fun kv => kv.1 == name)).map (·.2)

/-! ## Selector model (fragment of `scraper::Selector`)

The program only ever parses plain tag-name selectors from the job and
the fixed selector `a[href]`, so the modelled fragment is: a non-empty
alphabetic tag name, or `tag[attr]` with both parts non-empty and
alphabetic.  Everything else is a parse failure. -/

inductive Selector where
  | tagName : String → Selector
  | tagAttr : String → String → Selector
deriving DecidableEq

/-- `Selector::parse` on the modelled fragment. -/
def Selector.parse (s : String) : Option Selector :=
  let cs := s.data
  if !cs.isEmpty && cs.all Char.isAlpha then some (.tagName s)
  else
    let tag := cs.takeWhile (· != '[')
    match cs.dropWhile (· != '[') with
    | '[' :: rest =>
      let attr := rest.takeWhile Char.isAlpha
      if !tag.isEmpty && tag.all Char.isAlpha && !attr.isEmpty &&
          rest == attr ++ [']'] then
        some (.tagAttr (String.mk tag) (String.mk attr))
      else none
    | _ => none

/-- Whether an element node matches a selector. -/
def Selector.matches (sel : Selector) (n : Node) : Bool :=
  match sel, n with
  | .tagName t, .elem t' _ _ => t == t'
  | .tagAttr t a, .elem t' attrs _ => t == t' && attrs.any (fun kv => kv.1 == a)
  | _, .text _ => false

/-- `parsed.select(selector)`: matching elements in document order. -/
def Node.select (doc : Node) (sel : Selector) : List Node :=
  (Node.allElems doc).filter (fun n => sel.matches n)

/-! ## External collaborators -/

/-- Oracles for the external collaborators: the HTTP fetch (fused with
the lenient HTML parse, which never fails), `regex_lite::Regex::new`
(returning the compiled matcher `is_match` on success) and
`nanohtml2text::html2text`. -/
structure CrawlEnv where
  fetch : String → Except String Node
  regexCompile : String → Option (String → Bool)
  html2text : String → String

/-! ## Selector engine (`resolve_selectors`, src/lib.rs lines 34-72) -/

/-- The body of the innermost `match attribute.as_str()` (lines 45-68):
how one attribute spec updates one value bucket for one matched
element.  Note the pseudo-attributes carry a leading `#`. -/
def resolveAttr (env : CrawlEnv) (element : Node) (attrSpec : String)
    (s : List String) : List String :=
  if attrSpec = "#TextContent" then setInsert s element.textContent
  else if attrSpec = "#HtmlContent" then setInsert s element.serialize
  else if attrSpec = "#InnerHtml" then setInsert s element.innerHtml
  else if attrSpec = "#Html2Text" then setInsert s (env.html2text element.innerHtml)
  else
    match element.attrValue attrSpec with
    | some v => setInsert s v
    | none => s

/-- The value table: selector string → attribute spec → set of values. -/
def Results : Type := List (String × List (String × List String))

instance : DecidableEq Results := by
  unfold Results; exact inferInstance

/-- The `for attribute in attributes` loop (lines 43-69) over one
matched element: look up each attribute's bucket (`get_mut(..).unwrap()`,
line 44 — `none` on an absent key models the panic) and update it with
`resolveAttr`. -/
def attrFold (env : CrawlEnv) (element : Node) (attrs : List String)
    (selectorGroup : List (String × List String)) :
    Option (List (String × List String)) :=
  attrs.foldlM (fun group attrSpec =>
    alistModifyM group attrSpec
      (fun set => some (resolveAttr env element attrSpec set)))
    selectorGroup

/-- The per-element body (lines 40-70): re-fetch the selector's group
(`get_mut(selector_name).unwrap()`, line 41) and run the attribute
loop. -/
def elementStep (env : CrawlEnv) (selectorName : String)
    (attrs : List String) (results : Results) (element : Node) :
    Option Results :=
  alistModifyM results selectorName (attrFold env element attrs)

/-- `resolve_selectors` (lines 34-72): for every rule and every matched
element, resolve each attribute spec into its bucket.  `none` models the
panicking `.unwrap()`s on `get_mut` (lines 41 and 44). -/
def resolve_selectors (env : CrawlEnv) (parsed : Node)
    (selectors : List (String × Selector × List String)) (results : Results) :
    Option Results :=
  selectors.foldlM (fun results sel =>
    (parsed.select sel.2.1).foldlM (elementStep env sel.1 sel.2.2) results)
    results

/-! ## Link extraction (src/lib.rs lines 136-152) -/

/-- Rust `link.get(..1)`: the first byte as a string slice, provided the
string is non-empty and its first character is a single UTF-8 byte;
otherwise (empty string, or multi-byte first character, where byte
index 1 is not a char boundary) `None`. -/
def strGetFirst (s : String) : Option String :=
  match s.data with
  | [] => none
  | c :: _ => if c.utf8Size == 1 then some (String.mk [c]) else none

/-- Classification of one raw `href` (lines 139-149): `/` → join against
the page URL, `#` → drop, any other single-byte first character → keep
literally, no readable first byte → drop. -/
def classifyHref (homepage : URLRec) (link : String) : Option String :=
  match strGetFirst link with
  | some c =>
    if c == "/" then some (homepage.joinSlash link).toString
    else if c == "#" then none
    else some link
  | none => none

/-- The link pipeline of lines 136-152: select `a[href]` elements, read
`href`, classify, normalize, apply the follow pattern
(`map_or(false, ..)`: keep nothing when no pattern is set), drop
already-visited URLs. -/
def extractLinks (parsed : Node) (homepage : URLRec)
    (linksRegex : Option (String → Bool)) (visited : List String)
    (linksSel : Selector) : List String :=
  (((((parsed.select linksSel).filterMap
    (fun e => e.attrValue "href")).filterMap
    (classifyHref homepage)).filterMap
    normalize_url).filter
    (fun link => match linksRegex with | some w => w link | none => false)).filter
    (fun link => !visited.contains link)

/-! ## Crawl scheduler (src/lib.rs lines 107-165)

The `chunks(6)` batching only bounds the number of concurrently
outstanding fetches; with a pure fetch oracle, processing the frontier
site by site in order is observationally identical, so the model does
that.  `trace` and `levels` are ghost fields: `trace` records every URL
passed to `load_site`, `levels` records each frontier as its depth level
starts. -/

structure CrawlState where
  pending : List String
  temp : List String
  visited : List String
  cache : List Node
  depth : Nat
  trace : List String
  levels : List (List String)

/-- Result of the crawl loop.  `fail` is the `?`-propagation of a fetch
error (line 131), `crashed` a panicking `.unwrap()` (line 133),
`fuelOut` the artificial fuel bound of the model (proved unreachable). -/
inductive LoopRes where
  | ok : CrawlState → LoopRes
  | fail : String → CrawlState → LoopRes
  | crashed : CrawlState → LoopRes
  | fuelOut : LoopRes

/-- The final state recorded in a loop result (`[]`-states for
`fuelOut`). -/
def LoopRes.traceOf : LoopRes → List String
  | .ok st => st.trace
  | .fail _ st => st.trace
  | .crashed st => st.trace
  | .fuelOut => []

/-- Processing of one frontier site (lines 130-158): record the fetch,
fetch, re-parse the site URL (`.unwrap()`), mine links against the
*current* visited set, merge them into the level-local `temp` set, cache
the document and only then mark the site visited. -/
def processSites (env : CrawlEnv) (re : Option (String → Bool))
    (ls : Selector) : List String → CrawlState → LoopRes
  | [], st => .ok st
  | site :: rest, st =>
    match env.fetch site with
    | .error e => .fail e { st with trace := st.trace ++ [site] }
    | .ok parsed =>
      match parseUrl site with
      | none => .crashed { st with trace := st.trace ++ [site] }
      | some homepage =>
        processSites env re ls rest
          { st with
            trace := st.trace ++ [site]
            temp := setExtendList st.temp
              (extractLinks parsed homepage re st.visited ls)
            cache := st.cache ++ [parsed]
            visited := setInsert st.visited site }

/-- The depth-level loop (lines 122-165): reset `temp`, stop when the
frontier is empty or the depth exceeds `max_depth`, otherwise process
the whole frontier, promote `temp` to the new frontier and increment the
depth. -/
def crawlLoop (env : CrawlEnv) (re : Option (String → Bool)) (ls : Selector)
    (maxDepth : Nat) : Nat → CrawlState → LoopRes
  | 0, _ => .fuelOut
  | fuel + 1, st =>
    if st.pending.isEmpty || decide (st.depth > maxDepth) then
      .ok { st with temp := [] }
    else
      match processSites env re ls st.pending
          { st with temp := [], levels := st.levels ++ [st.pending] } with
      | .ok st1 =>
        crawlLoop env re ls maxDepth fuel
          { st1 with pending := st1.temp, depth := st1.depth + 1 }
      | r => r

/-- The crawl state before the first depth level. -/
def initState (seed : String) : CrawlState :=
  { pending := [seed], temp := [], visited := [], cache := [], depth := 0,
    trace := [], levels := [] }

/-! ## The `/scrape` handler (src/lib.rs lines 87-169) -/

/-- One extraction rule (`Search`). -/
structure Search where
  selector : String
  attributes : List String

/-- Job submission payload (`SiteDefinition`). -/
structure SiteDefinition where
  url : String
  follow_links : Option String
  max_depth : Option Nat
  searches : List Search

/-- The pre-populated results map (lines 96-99): every declared
(selector, attribute) pair mapped to an empty set, later entries of a
duplicated key overwriting earlier ones as `HashMap::collect` does. -/
def resultsInit (searches : List Search) : Results :=
  alistCollect (searches.map (fun s =>
    (s.selector, alistCollect (s.attributes.map (fun a => (a, ([] : List String)))))))

/-- Selector compilation (lines 102-105): `Selector::parse(..).unwrap()`
for every rule, collected into a vector; `none` models the panic on an
invalid selector. -/
def compileSelectors : List Search → Option (List (String × Selector × List String))
  | [] => some []
  | s :: rest =>
    match Selector.parse s.selector with
    | none => none
    | some sel =>
      (compileSelectors rest).map (fun l => (s.selector, sel, s.attributes) :: l)

/-- Outcome of the handler as observable by the caller: a JSON value
table, a `worker::Error` (`?`-propagation), a panic, or the unreachable
fuel bound. -/
inductive Outcome (α : Type) where
  | ok : α → Outcome α
  | err : String → Outcome α
  | crashed : Outcome α
  | fuelOut : Outcome α
deriving DecidableEq

/-- Everything the handler does before the crawl loop (lines 96-119), in
source order: compile the selectors (panics on an invalid one),
normalize the seed (`"Invalid Url Provided"` on failure), compile the
follow pattern (its `Error::to_string()` is abstracted to the pattern
text), parse the fixed `a[href]` selector. -/
def scrapePrep (env : CrawlEnv) (sd : SiteDefinition) :
    Outcome ((List (String × Selector × List String)) × String ×
      Option (String → Bool) × Selector) :=
  match compileSelectors sd.searches with
  | none => .crashed
  | some selectors =>
    match normalize_url sd.url with
    | none => .err "Invalid Url Provided"
    | some seed =>
      match sd.follow_links with
      | some pat =>
        match env.regexCompile pat with
        | none => .err pat
        | some re =>
          match Selector.parse "a[href]" with
          | none => .crashed
          | some ls => .ok (selectors, seed, some re, ls)
      | none =>
        match Selector.parse "a[href]" with
        | none => .crashed
        | some ls => .ok (selectors, seed, none, ls)

/-- The crawl-loop part of the handler: `some` once the loop is reached,
with fuel `max_depth + 2`, which the termination claim proves
sufficient. -/
def scrapeLoopRes (env : CrawlEnv) (sd : SiteDefinition) : Option LoopRes :=
  match scrapePrep env sd with
  | .ok (_, seed, re, ls) =>
    some (crawlLoop env re ls (sd.max_depth.getD 0) (sd.max_depth.getD 0 + 2)
      (initState seed))
  | _ => none

/-- The whole `/scrape` handler (lines 87-169): preparation, crawl loop,
then `resolve_selectors` over every cached document. -/
def scrape (env : CrawlEnv) (sd : SiteDefinition) : Outcome Results :=
  match scrapePrep env sd with
  | .crashed => .crashed
  | .err e => .err e
  | .fuelOut => .fuelOut
  | .ok (selectors, seed, re, ls) =>
    match crawlLoop env re ls (sd.max_depth.getD 0) (sd.max_depth.getD 0 + 2)
        (initState seed) with
    | .fuelOut => .fuelOut
    | .fail e _ => .err e
    | .crashed _ => .crashed
    | .ok st =>
      match st.cache.foldlM (fun r doc => resolve_selectors env doc selectors r)
          (resultsInit sd.searches) with
      | none => .crashed
      | some finalResults => .ok finalResults

/-! ## Concrete fixtures used by counterexamples and witnesses -/

/-- Fixture page for Example 1 of the spec: a document whose `title`
element has the text `Example Domain`. -/
def docTitle : Node :=
  .elem "html" [] [.elem "head" [] [.elem "title" [] [.text "Example Domain"]]]

/-- Environment serving `docTitle` at the normalized seed
`https://example.com/`, with no usable follow pattern. -/
def envTitle : CrawlEnv :=
  { fetch := fun u => if u = "https://example.com/" then .ok docTitle
      else .error "not found",
    regexCompile := fun _ => none,
    html2text := fun s => s }

/-- Example 1 job as the spec states it, attribute spec `TextContent`. -/
def sdTitle : SiteDefinition :=
  { url := "https://example.com", follow_links := none, max_depth := some 0,
    searches := [{ selector := "title", attributes := ["TextContent"] }] }

/-- Example 1 job with the attribute spec the code actually dispatches
on, `#TextContent`. -/
def sdTitleAmended : SiteDefinition :=
  { url := "https://example.com", follow_links := none, max_depth := some 0,
    searches := [{ selector := "title", attributes := ["#TextContent"] }] }

/-- A page that links to its own URL via `href="/"`. -/
def docSelf : Node := .elem "html" [] [.elem "a" [("href", "/")] []]

/-- Environment serving the self-linking page at `http://a.com/` and
compiling the pattern `.*` to a matcher accepting everything. -/
def envSelf : CrawlEnv :=
  { fetch := fun u => if u = "http://a.com/" then .ok docSelf else .error "nf",
    regexCompile := fun p => if p = ".*" then some (fun _ => true) else none,
    html2text := fun s => s }

/-- Job crawling the self-linking seed one level deep. -/
def sdSelf : SiteDefinition :=
  { url := "http://a.com", follow_links := some ".*", max_depth := some 1,
    searches := [] }

/-- A document with no matching elements at all. -/
def docEmpty : Node := .elem "html" [] []

/-- Environment serving the empty document everywhere. -/
def envEmpty : CrawlEnv :=
  { fetch := fun _ => .ok docEmpty,
    regexCompile := fun _ => none,
    html2text := fun s => s }

/-- Job with two SearchRules sharing the selector string `title` but
declaring different attribute specs. -/
def sdDup : SiteDefinition :=
  { url := "https://example.com", follow_links := none, max_depth := some 0,
    searches := [{ selector := "title", attributes := ["x"] },
                 { selector := "title", attributes := ["y"] }] }

/-- Job whose single SearchRule has a syntactically invalid selector. -/
def sdBadSel : SiteDefinition :=
  { url := "https://example.com", follow_links := none, max_depth := some 0,
    searches := [{ selector := "?!", attributes := ["x"] }] }

/-- Seed page containing one followable link `href="/b"`. -/
def docLink : Node := .elem "html" [] [.elem "a" [("href", "/b")] []]

/-- Environment where the seed page fetches fine but every discovered
link fails with a transport error `boom`. -/
def envLinkFails : CrawlEnv :=
  { fetch := fun u => if u = "http://a.com/" then .ok docLink
      else .error "boom",
    regexCompile := fun p => if p = ".*" then some (fun _ => true) else none,
    html2text := fun s => s }

/-- Job following links from the seed one level deep. -/
def sdLinkFails : SiteDefinition :=
  { url := "http://a.com", follow_links := some ".*", max_depth := some 1,
    searches := [{ selector := "title", attributes := ["#TextContent"] }] }

/-- A concrete base URL record (`http://a.com/`). -/
def urlBase : URLRec :=
  { scheme := "http".data, authority := "a.com".data, path := "/".data,
    query := none, fragment := none }

/-- Invariant satisfied by every `parseUrlChars` output: components stay
within their modelled character classes, so the serialization re-parses
to the same record. -/
def URLwf (u : URLRec) : Prop :=
  u.scheme ≠ [] ∧ (∀ c ∈ u.scheme, c.isAlpha = true) ∧
  u.authority ≠ [] ∧ (∀ c ∈ u.authority, authChar c = true) ∧
  (∃ pt, u.path = '/' :: pt) ∧ (∀ c ∈ u.path, pathChar c = true) ∧
  (∀ q, u.query = some q → ∀ c ∈ q, (c != '#') = true)

/-- The record `u` with query and fragment removed, as produced by
re-parsing the `Position::BeforeQuery` slice. -/
def URLRec.stripped (u : URLRec) : URLRec :=
  { scheme := u.scheme, authority := u.authority, path := u.path,
    query := none, fragment := none }

/-- The crawl state after the self-linking seed's first depth level. -/
def stSelfLevel0 : CrawlState :=
  { pending := ["http://a.com/"], temp := ["http://a.com/"],
    visited := ["http://a.com/"], cache := [docSelf], depth := 0,
    trace := ["http://a.com/"], levels := [] }

/-- The final crawl state of the Example 1 fixture job. -/
def stTitleFinal : CrawlState :=
  { pending := [], temp := [], visited := ["https://example.com/"],
    cache := [docTitle], depth := 1, trace := ["https://example.com/"],
    levels := [["https://example.com/"]] }

/-- Relation between two `Results` tables: every bucket of the first is
still present in the second with at least the same values. -/
def bucketsMono (r r' : Results) : Prop :=
  ∀ k g, alistGet r k = some g → ∃ g', alistGet r' k = some g' ∧
    ∀ a s, alistGet g a = some s → ∃ s', alistGet g' a = some s' ∧
      ∀ x ∈ s, x ∈ s'

/-- The key skeleton of a results table: the outer keys in order, each
with its bucket keys in order. -/
def resultsShape (r : Results) : List (String × List String) :=
  r.map (fun p => (p.1, p.2.map Prod.fst))

/-! # Theorems

## Generic list lemmas -/

theorem takeWhile_append_all {α : Type} (p : α → Bool) (l r : List α)
    (h : ∀ x ∈ l, p x = true) : (l ++ r).takeWhile p = l ++ r.takeWhile p := by
  induction l with
  | nil => rfl
  | cons a l ih =>
    have ha : p a = true := h a (List.mem_cons_self a l)
    simp only [List.cons_append, List.takeWhile_cons, ha, if_true]
    rw [ih (fun x hx => h x (List.mem_cons_of_mem a hx))]

theorem dropWhile_append_all {α : Type} (p : α → Bool) (l r : List α)
    (h : ∀ x ∈ l, p x = true) : (l ++ r).dropWhile p = r.dropWhile p := by
  induction l with
  | nil => rfl
  | cons a l ih =>
    have ha : p a = true := h a (List.mem_cons_self a l)
    simp only [List.cons_append, List.dropWhile_cons, ha, if_true]
    exact ih (fun x hx => h x (List.mem_cons_of_mem a hx))

theorem takeWhile_all {α : Type} (p : α → Bool) (l : List α)
    (h : ∀ x ∈ l, p x = true) : l.takeWhile p = l := by
  have := takeWhile_append_all p l [] h
  simpa using this

theorem dropWhile_all {α : Type} (p : α → Bool) (l : List α)
    (h : ∀ x ∈ l, p x = true) : l.dropWhile p = [] := by
  have := dropWhile_append_all p l [] h
  simpa using this

theorem takeWhile_cons_neg {α : Type} (p : α → Bool) (a : α) (l : List α)
    (h : p a = false) : (a :: l).takeWhile p = [] := by
  simp [List.takeWhile_cons, h]

theorem dropWhile_cons_neg {α : Type} (p : α → Bool) (a : α) (l : List α)
    (h : p a = false) : (a :: l).dropWhile p = a :: l := by
  simp [List.dropWhile_cons, h]

theorem dropWhile_cons_head_not {α : Type} (p : α → Bool) (l : List α) (a : α)
    (r : List α) (h : l.dropWhile p = a :: r) : p a = false := by
  have := List.head?_dropWhile_not p l
  rw [h] at this
  exact this

theorem takeWhile_eq_cons_src {α : Type} (p : α → Bool) (l : List α) (a : α)
    (r : List α) (h : l.takeWhile p = a :: r) : ∃ l', l = a :: l' := by
  cases l with
  | nil => simp at h
  | cons b l' =>
    cases hb : p b with
    | true =>
      rw [List.takeWhile_cons, hb] at h
      simp at h
      exact ⟨l', by rw [h.1]⟩
    | false =>
      rw [List.takeWhile_cons, hb] at h
      simp at h

/-! ## URL model: the parser output invariant and the round trip -/

theorem isAlpha_ne_colon (c : Char) (h : c.isAlpha = true) : (c != ':') = true := by
  rcases eq_or_ne c ':' with rfl | hne
  · exact absurd h (by decide)
  · simp [bne_iff_ne, hne]

theorem parsePQF_of_parts (u : URLRec)
    (hpall : ∀ c ∈ u.path, pathChar c = true)
    (hq : ∀ q, u.query = some q → ∀ c ∈ q, (c != '#') = true) :
    parsePQF (u.path ++ qfChars u) = (u.path, u.query, u.fragment) := by
  cases hqv : u.query with
  | some q =>
    have hqall : ∀ c ∈ q, (c != '#') = true := hq q hqv
    cases hfv : u.fragment with
    | some f =>
      have e : u.path ++ qfChars u = u.path ++ ('?' :: (q ++ '#' :: f)) := by
        simp [qfChars, hqv, hfv]
      rw [e]
      unfold parsePQF
      rw [takeWhile_append_all _ _ _ hpall, dropWhile_append_all _ _ _ hpall,
        takeWhile_cons_neg pathChar '?' _ (by decide),
        dropWhile_cons_neg pathChar '?' _ (by decide)]
      simp only [List.append_nil]
      rw [takeWhile_append_all _ _ _ hqall, dropWhile_append_all _ _ _ hqall,
        takeWhile_cons_neg _ '#' _ (by decide),
        dropWhile_cons_neg _ '#' _ (by decide)]
      simp
    | none =>
      have e : u.path ++ qfChars u = u.path ++ ('?' :: (q ++ [])) := by
        simp [qfChars, hqv, hfv]
      rw [e]
      unfold parsePQF
      rw [takeWhile_append_all _ _ _ hpall, dropWhile_append_all _ _ _ hpall,
        takeWhile_cons_neg pathChar '?' _ (by decide),
        dropWhile_cons_neg pathChar '?' _ (by decide)]
      simp only [List.append_nil]
      rw [takeWhile_all _ _ hqall, dropWhile_all _ _ hqall]
  | none =>
    cases hfv : u.fragment with
    | some f =>
      have e : u.path ++ qfChars u = u.path ++ ('#' :: f) := by
        simp [qfChars, hqv, hfv]
      rw [e]
      unfold parsePQF
      rw [takeWhile_append_all _ _ _ hpall, dropWhile_append_all _ _ _ hpall,
        takeWhile_cons_neg pathChar '#' _ (by decide),
        dropWhile_cons_neg pathChar '#' _ (by decide)]
      simp only [List.append_nil]
    | none =>
      have e : u.path ++ qfChars u = u.path := by
        simp [qfChars, hqv, hfv]
      rw [e]
      unfold parsePQF
      rw [takeWhile_all _ _ hpall, dropWhile_all _ _ hpall]

theorem parse_serialize (u : URLRec) (h : URLwf u) :
    parseUrlChars (beforeQueryChars u ++ qfChars u) = some u := by
  obtain ⟨hs, hsall, ha, haall, ⟨pt, hpath⟩, hpall, hq⟩ := h
  have hcolon : ∀ c ∈ u.scheme, (c != ':') = true :=
    fun c hc => isAlpha_ne_colon c (hsall c hc)
  have e1 : beforeQueryChars u ++ qfChars u
      = u.scheme ++ (':' :: '/' :: '/' :: (u.authority ++ u.path ++ qfChars u)) := by
    simp [beforeQueryChars, List.append_assoc]
  have e4 : (u.authority ++ u.path ++ qfChars u).takeWhile authChar = u.authority := by
    rw [List.append_assoc, takeWhile_append_all _ _ _ haall, hpath,
      List.cons_append, takeWhile_cons_neg authChar '/' _ (by decide),
      List.append_nil]
  have e5 : (u.authority ++ u.path ++ qfChars u).dropWhile authChar
      = u.path ++ qfChars u := by
    rw [List.append_assoc, dropWhile_append_all _ _ _ haall, hpath,
      List.cons_append, dropWhile_cons_neg authChar '/' _ (by decide),
      ← List.cons_append, ← hpath]
  rw [e1]
  unfold parseUrlChars
  rw [takeWhile_append_all _ _ _ hcolon, dropWhile_append_all _ _ _ hcolon,
    takeWhile_cons_neg _ ':' _ (by decide), dropWhile_cons_neg _ ':' _ (by decide),
    List.append_nil]
  simp only []
  rw [if_neg hs, if_neg (by rw [List.all_eq_true.mpr hsall]; decide)]
  rw [e4, e5, if_neg ha, parsePQF_of_parts u hpall hq]
  simp only []
  rw [if_neg (by rw [hpath]; exact fun hx => List.noConfusion hx)]

theorem parsePQF_path (cs : List Char) : (parsePQF cs).1 = cs.takeWhile pathChar := by
  unfold parsePQF
  split
  · split
    · rfl
    · rfl
  · rfl
  · rfl

theorem parsePQF_query_all (cs : List Char) (q : List Char)
    (h : (parsePQF cs).2.1 = some q) : ∀ c ∈ q, (c != '#') = true := by
  unfold parsePQF at h
  split at h
  · split at h <;>
      (simp only [Option.some.injEq] at h; subst h;
        exact fun c hc => List.mem_takeWhile_imp (p := fun x => x != '#') hc)
  · simp at h
  · simp at h

theorem parsePQF_fragment (cs : List Char) : (parsePQF cs).2.2 = none ∨
    ∃ f, (parsePQF cs).2.2 = some f := by
  rcases hf : (parsePQF cs).2.2 with _ | f
  · exact Or.inl rfl
  · exact Or.inr ⟨f, rfl⟩

theorem authChar_false_pathChar_true (c : Char) (h1 : authChar c = false)
    (h2 : pathChar c = true) : c = '/' := by
  simp only [authChar, Bool.not_eq_false', Bool.or_eq_true, beq_iff_eq] at h1
  simp only [pathChar, Bool.not_eq_true', Bool.or_eq_false_iff, beq_eq_false_iff_ne] at h2
  rcases h1 with (h1 | h1) | h1
  · exact h1
  · exact absurd h1 h2.1
  · exact absurd h1 h2.2

theorem parse_wf (cs : List Char) (u : URLRec) (h : parseUrlChars cs = some u) :
    URLwf u := by
  unfold parseUrlChars at h
  split at h
  case h_2 => exact absurd h (by simp)
  case h_1 rest heq =>
    split at h
    case isTrue => exact absurd h (by simp)
    case isFalse hs =>
      split at h
      case isTrue => exact absurd h (by simp)
      case isFalse hall =>
        split at h
        case isTrue => exact absurd h (by simp)
        case isFalse hauth =>
          simp only [Option.some.injEq] at h
          subst h
          have hall' : (cs.takeWhile (· != ':')).all Char.isAlpha = true := by
            simpa using hall
          refine ⟨hs, List.all_eq_true.mp hall', hauth,
            fun c hc => List.mem_takeWhile_imp hc, ?_, ?_, ?_⟩
          · simp only []
            rcases hp : (parsePQF (rest.dropWhile authChar)).1 with _ | ⟨c, r⟩
            · rw [if_pos rfl]
              exact ⟨[], rfl⟩
            · rw [if_neg (by simp)]
              rw [parsePQF_path] at hp
              have hcpath : pathChar c = true :=
                List.mem_takeWhile_imp (hp ▸ List.mem_cons_self c r)
              obtain ⟨l', hl'⟩ := takeWhile_eq_cons_src _ _ _ _ hp
              have hcauth : authChar c = false :=
                dropWhile_cons_head_not authChar rest c l' hl'
              exact ⟨r, by rw [authChar_false_pathChar_true c hcauth hcpath]⟩
          · simp only []
            rcases hp : (parsePQF (rest.dropWhile authChar)).1 with _ | ⟨c, r⟩
            · rw [if_pos rfl]
              intro c hc
              simp only [List.mem_singleton] at hc
              subst hc
              decide
            · rw [if_neg (by simp)]
              intro x hx
              rw [parsePQF_path] at hp
              exact List.mem_takeWhile_imp (hp ▸ hx)
          · intro q hq
            exact parsePQF_query_all _ q hq

theorem parseUrl_mk (l : List Char) : parseUrl (String.mk l) = parseUrlChars l := rfl

theorem stripped_wf (u : URLRec) (h : URLwf u) : URLwf u.stripped := by
  obtain ⟨a, b, c, d, e, f, _⟩ := h
  exact ⟨a, b, c, d, e, f, by intro q hq; cases hq⟩

theorem beforeQuery_eq_serialize_stripped (u : URLRec) :
    beforeQueryChars u = beforeQueryChars u.stripped ++ qfChars u.stripped := by
  simp [beforeQueryChars, qfChars, URLRec.stripped]

theorem toString_stripped (u : URLRec) :
    u.stripped.toString = String.mk (beforeQueryChars u) := by
  simp [URLRec.toString, qfChars, URLRec.stripped, beforeQueryChars]

theorem normalize_url_eq (s : String) (u : URLRec) (h : parseUrl s = some u) :
    normalize_url s = (match parseUrl (String.mk (beforeQueryChars u)) with
      | none => none
      | some u2 => some u2.toString) := by
  unfold normalize_url
  rw [h]

theorem normalize_url_sound (s : String) (u : URLRec) (h : parseUrl s = some u) :
    normalize_url s = some u.stripped.toString := by
  have hwf : URLwf u := parse_wf s.data u h
  have h2 : parseUrl (String.mk (beforeQueryChars u)) = some u.stripped := by
    rw [parseUrl_mk, beforeQuery_eq_serialize_stripped]
    exact parse_serialize u.stripped (stripped_wf u hwf)
  rw [normalize_url_eq s u h, h2]

theorem stripped_stripped (u : URLRec) : u.stripped.stripped = u.stripped := rfl

theorem parseUrl_toString_stripped (u : URLRec) (h : URLwf u) :
    parseUrl u.stripped.toString = some u.stripped := by
  rw [toString_stripped, parseUrl_mk, beforeQuery_eq_serialize_stripped]
  exact parse_serialize u.stripped (stripped_wf u h)

/-- C9: URL normalization is idempotent.  Whenever `normalize_url`
succeeds on a string `s` (so `s` is a syntactically valid URL of the
modelled fragment) and produces `t` — the URL dropped to scheme,
authority and path — then normalizing `t` again succeeds and returns
`t` unchanged. -/
theorem normalize_url_idempotent (s t : String) (h : normalize_url s = some t) :
    normalize_url t = some t := by
  cases hp1 : parseUrl s with
  | none =>
    unfold normalize_url at h
    rw [hp1] at h
    exact absurd h (by simp)
  | some u =>
    have hwf := parse_wf s.data u hp1
    have hsnd := normalize_url_sound s u hp1
    rw [h] at hsnd
    have ht : t = u.stripped.toString := by
      simpa using hsnd
    have hpt : parseUrl t = some u.stripped := by
      rw [ht]
      exact parseUrl_toString_stripped u hwf
    have hfin := normalize_url_sound t u.stripped hpt
    rw [stripped_stripped] at hfin
    rw [ht] at hfin ⊢
    exact hfin

/-- Witness for the idempotence claim at a concrete URL carrying both a
query and a fragment. -/
theorem normalize_url_idempotent_witness :
    normalize_url "http://a.com/x?q#f" = some "http://a.com/x" ∧
    normalize_url "http://a.com/x" = some "http://a.com/x" :=
  ⟨by rfl, normalize_url_idempotent "http://a.com/x?q#f" "http://a.com/x" (by rfl)⟩

/-! ## Set-as-list lemmas -/

theorem contains_iff_mem (l : List String) (x : String) :
    l.contains x = true ↔ x ∈ l := List.elem_iff

theorem mem_setInsert (l : List String) (x y : String) :
    y ∈ setInsert l x ↔ y ∈ l ∨ y = x := by
  unfold setInsert
  split
  case isTrue h =>
    constructor
    · exact Or.inl
    · rintro (hy | rfl)
      · exact hy
      · exact (contains_iff_mem l y).mp h
  case isFalse h =>
    simp [List.mem_append]

theorem setInsert_nodup (l : List String) (x : String) (h : l.Nodup) :
    (setInsert l x).Nodup := by
  unfold setInsert
  split
  case isTrue _ => exact h
  case isFalse hx =>
    refine List.Nodup.append h (List.nodup_singleton x) ?_
    intro a ha hax
    simp only [List.mem_singleton] at hax
    subst hax
    exact hx ((contains_iff_mem l a).mpr ha)

theorem mem_setExtendList (xs l : List String) (y : String) :
    y ∈ setExtendList l xs ↔ y ∈ l ∨ y ∈ xs := by
  induction xs generalizing l with
  | nil => simp [setExtendList]
  | cons a xs ih =>
    unfold setExtendList at ih ⊢
    simp only [List.foldl_cons]
    rw [ih (setInsert l a), mem_setInsert]
    simp only [List.mem_cons]
    tauto

theorem setExtendList_nodup (xs l : List String) (h : l.Nodup) :
    (setExtendList l xs).Nodup := by
  induction xs generalizing l with
  | nil => exact h
  | cons a xs ih =>
    unfold setExtendList at ih ⊢
    simp only [List.foldl_cons]
    exact ih (setInsert l a) (setInsert_nodup l a h)

/-! ## Link-extraction lemmas -/

theorem extractLinks_not_visited (parsed : Node) (homepage : URLRec)
    (re : Option (String → Bool)) (visited : List String) (ls : Selector) :
    ∀ u ∈ extractLinks parsed homepage re visited ls, u ∉ visited := by
  intro u hu hmem
  unfold extractLinks at hu
  rw [List.mem_filter] at hu
  have h1 : visited.contains u = true := (contains_iff_mem visited u).mpr hmem
  have h2 := hu.2
  rw [h1] at h2
  simp at h2

theorem extractLinks_no_regex (parsed : Node) (homepage : URLRec)
    (visited : List String) (ls : Selector) :
    extractLinks parsed homepage none visited ls = [] := by
  unfold extractLinks
  simp

/-! ## A generic invariant rule for `Option`-valued left folds -/

theorem foldlM_option_invariant {α β : Type} (P : β → β → Prop)
    (htrans : ∀ a b c, P a b → P b c → P a c) (hrefl : ∀ a, P a a)
    (f : β → α → Option β) (hstep : ∀ b a b', f b a = some b' → P b b') :
    ∀ (l : List α) (b b' : β), List.foldlM f b l = some b' → P b b' := by
  intro l
  induction l with
  | nil =>
    intro b b' h
    simp only [List.foldlM_nil, Option.pure_def, Option.some.injEq] at h
    subst h
    exact hrefl b
  | cons a l ih =>
    intro b b' h
    rw [List.foldlM_cons] at h
    cases hfa : f b a with
    | none => rw [hfa] at h; exact absurd h (by simp)
    | some b1 =>
      rw [hfa] at h
      simp only [Option.bind_eq_bind, Option.some_bind] at h
      exact htrans b b1 b' (hstep b a b1 hfa) (ih b1 b' h)

/-! ## Level-processing lemmas (`processSites`) -/

theorem processSites_ok_trace (env : CrawlEnv) (re : Option (String → Bool))
    (ls : Selector) :
    ∀ (sites : List String) (st st' : CrawlState),
    processSites env re ls sites st = .ok st' → st'.trace = st.trace ++ sites := by
  intro sites
  induction sites with
  | nil =>
    intro st st' h
    unfold processSites at h
    cases h
    simp
  | cons site rest ih =>
    intro st st' h
    unfold processSites at h
    split at h
    · exact absurd h (by simp)
    · split at h
      · exact absurd h (by simp)
      · have := ih _ _ h
        simp only at this
        rw [this]
        simp

theorem processSites_ok_fields (env : CrawlEnv) (re : Option (String → Bool))
    (ls : Selector) :
    ∀ (sites : List String) (st st' : CrawlState),
    processSites env re ls sites st = .ok st' →
    st'.pending = st.pending ∧ st'.depth = st.depth ∧ st'.levels = st.levels := by
  intro sites
  induction sites with
  | nil =>
    intro st st' h
    unfold processSites at h
    cases h
    exact ⟨rfl, rfl, rfl⟩
  | cons site rest ih =>
    intro st st' h
    unfold processSites at h
    split at h
    · exact absurd h (by simp)
    · split at h
      · exact absurd h (by simp)
      · have h2 := ih _ _ h
        exact h2

theorem processSites_visited_mono (env : CrawlEnv) (re : Option (String → Bool))
    (ls : Selector) :
    ∀ (sites : List String) (st st' : CrawlState),
    processSites env re ls sites st = .ok st' →
    ∀ u ∈ st.visited, u ∈ st'.visited := by
  intro sites
  induction sites with
  | nil =>
    intro st st' h
    unfold processSites at h
    cases h
    exact fun u hu => hu
  | cons site rest ih =>
    intro st st' h u hu
    unfold processSites at h
    split at h
    · exact absurd h (by simp)
    · split at h
      · exact absurd h (by simp)
      · exact ih _ _ h u (by
          simp only [mem_setInsert]
          exact Or.inl hu)

theorem processSites_temp_fresh (env : CrawlEnv) (re : Option (String → Bool))
    (ls : Selector) :
    ∀ (sites : List String) (st st' : CrawlState),
    processSites env re ls sites st = .ok st' →
    ∀ u ∈ st'.temp, u ∈ st.temp ∨ u ∉ st.visited := by
  intro sites
  induction sites with
  | nil =>
    intro st st' h u hu
    unfold processSites at h
    cases h
    exact Or.inl hu
  | cons site rest ih =>
    intro st st' h u hu
    unfold processSites at h
    split at h
    · exact absurd h (by simp)
    · split at h
      · exact absurd h (by simp)
      · rcases ih _ _ h u hu with htemp | hvis
        · simp only [mem_setExtendList] at htemp
          rcases htemp with htemp | hnew
          · exact Or.inl htemp
          · exact Or.inr (extractLinks_not_visited _ _ _ _ _ u hnew)
        · simp only [mem_setInsert] at hvis
          push_neg at hvis
          exact Or.inr hvis.1

theorem processSites_temp_nodup (env : CrawlEnv) (re : Option (String → Bool))
    (ls : Selector) :
    ∀ (sites : List String) (st st' : CrawlState),
    processSites env re ls sites st = .ok st' →
    st.temp.Nodup → st'.temp.Nodup := by
  intro sites
  induction sites with
  | nil =>
    intro st st' h hn
    unfold processSites at h
    cases h
    exact hn
  | cons site rest ih =>
    intro st st' h hn
    unfold processSites at h
    split at h
    · exact absurd h (by simp)
    · split at h
      · exact absurd h (by simp)
      · exact ih _ _ h (setExtendList_nodup _ _ hn)

/-- C2 (amended): processing one full depth level — the transition whose
result becomes the next frontier — yields a `temp` set that is disjoint
from the set of URLs visited *before the level began*, and that is
duplicate-free, so within a single depth level no URL is fetched twice.
(The original claim's stronger reading — disjointness from the visited
set *after* the level, i.e. a URL is never fetched twice per job — fails:
a URL discovered on a page during the same level in which that page is
fetched, e.g. a seed linking to its own normalized URL, re-enters the
frontier; see the counterexample.) -/
theorem frontier_fresh_and_nodup (env : CrawlEnv) (re : Option (String → Bool))
    (ls : Selector) (sites : List String) (st st' : CrawlState)
    (htemp : st.temp = []) (hok : processSites env re ls sites st = .ok st') :
    (∀ u ∈ st'.temp, u ∉ st.visited) ∧ st'.temp.Nodup := by
  constructor
  · intro u hu
    rcases processSites_temp_fresh env re ls sites st st' hok u hu with h | h
    · rw [htemp] at h
      cases h
    · exact h
  · exact processSites_temp_nodup env re ls sites st st' hok (by rw [htemp]; exact List.nodup_nil)

/-- Witness for the amended C2 at the self-linking fixture's first depth
level: the produced frontier avoids the previously-visited set (empty
here) and has no duplicates. -/
theorem frontier_fresh_and_nodup_witness :
    (∀ u ∈ stSelfLevel0.temp, u ∉ (initState "http://a.com/").visited) ∧
    stSelfLevel0.temp.Nodup :=
  frontier_fresh_and_nodup envSelf (some (fun _ => true))
    (Selector.tagAttr "a" "href") ["http://a.com/"] (initState "http://a.com/")
    stSelfLevel0 (by rfl) (by rfl)

/-- Counterexample to C2 as stated: in the job `sdSelf` (seed
`http://a.com`, `followLinks = ".*"`, `maxDepth = 1`) whose seed page
links to its own normalized URL, the fetch trace of the crawl loop is
the seed twice — the URL is fetched twice in one job, and at the first
depth-level boundary the frontier equals {seed} ⊆ visited, so
`visited ∩ frontier ≠ ∅`. -/
theorem seed_refetched_cex :
    (scrapeLoopRes envSelf sdSelf).map LoopRes.traceOf =
      some ["http://a.com/", "http://a.com/"] := by rfl

/-! ## Crawl-loop lemmas -/

theorem processSites_ne_fuelOut (env : CrawlEnv) (re : Option (String → Bool))
    (ls : Selector) :
    ∀ (sites : List String) (st : CrawlState),
    processSites env re ls sites st ≠ .fuelOut := by
  intro sites
  induction sites with
  | nil => intro st h; cases h
  | cons site rest ih =>
    intro st h
    unfold processSites at h
    split at h
    · cases h
    · split at h
      · cases h
      · exact ih _ h

theorem crawlLoop_ne_fuelOut (env : CrawlEnv) (re : Option (String → Bool))
    (ls : Selector) (maxDepth : Nat) :
    ∀ (fuel : Nat) (st : CrawlState), 1 ≤ fuel → maxDepth + 2 ≤ st.depth + fuel →
    crawlLoop env re ls maxDepth fuel st ≠ .fuelOut := by
  intro fuel
  induction fuel with
  | zero => intro st h1 _; omega
  | succ fuel ih =>
    intro st h1 h2
    unfold crawlLoop
    split
    case isTrue _ => intro h; cases h
    case isFalse hcond =>
      have hdep : st.depth ≤ maxDepth := by
        by_contra hgt
        push_neg at hgt
        exact hcond (by simp [decide_eq_true_eq, hgt])
      cases hps : processSites env re ls st.pending
          { st with temp := [], levels := st.levels ++ [st.pending] } with
      | ok st1 =>
        have hfields := processSites_ok_fields env re ls st.pending _ st1 hps
        apply ih
        · omega
        · have hd : st1.depth = st.depth := hfields.2.1
          simp only [hd]
          omega
      | fail e st1 => intro h; cases h
      | crashed st1 => intro h; cases h
      | fuelOut => exact absurd hps (processSites_ne_fuelOut env re ls _ _)

theorem scrapePrep_ne_fuelOut (env : CrawlEnv) (sd : SiteDefinition) :
    scrapePrep env sd ≠ .fuelOut := by
  unfold scrapePrep
  split
  · intro h; cases h
  · split
    · intro h; cases h
    · split
      · split
        · intro h; cases h
        · split
          · intro h; cases h
          · intro h; cases h
      · split
        · intro h; cases h
        · intro h; cases h

/-- C10: the crawl loop terminates on every job and environment.  Each
depth level increments the depth by one and the loop stops once the
frontier empties or the depth exceeds `max_depth` (default 0), so the
level body runs at most `max_depth + 1` times; the model's fuel bound
of `max_depth + 2` loop entries is never exhausted, hence `scrape`
never returns the `fuelOut` marker. -/
theorem scrape_terminates (env : CrawlEnv) (sd : SiteDefinition) :
    scrape env sd ≠ .fuelOut := by
  unfold scrape
  split
  · intro h; cases h
  · intro h; cases h
  case h_3 heq => exact absurd heq (scrapePrep_ne_fuelOut env sd)
  case h_4 selectors seed re ls heq =>
    cases hcl : crawlLoop env re ls (sd.max_depth.getD 0) (sd.max_depth.getD 0 + 2)
        (initState seed) with
    | fuelOut =>
      exact absurd hcl
        (crawlLoop_ne_fuelOut env re ls (sd.max_depth.getD 0) _ _ (by omega)
          (by simp [initState]))
    | ok st =>
      intro h
      cases hfold : st.cache.foldlM
          (fun r doc => resolve_selectors env doc selectors r)
          (resultsInit sd.searches) with
      | none => simp only [hfold] at h; cases h
      | some r => simp only [hfold] at h; cases h
    | fail e st => intro h; cases h
    | crashed st => intro h; cases h

theorem crawlLoop_ok_invariants (env : CrawlEnv) (re : Option (String → Bool))
    (ls : Selector) (maxDepth : Nat) :
    ∀ (fuel : Nat) (st st' : CrawlState),
    crawlLoop env re ls maxDepth fuel st = .ok st' →
    (st.trace = st.levels.flatten → st'.trace = st'.levels.flatten) ∧
    st'.levels.length ≤ st.levels.length + (maxDepth + 1 - st.depth) := by
  intro fuel
  induction fuel with
  | zero =>
    intro st st' h
    cases h
  | succ fuel ih =>
    intro st st' h
    unfold crawlLoop at h
    split at h
    case isTrue hcond =>
      cases h
      exact ⟨fun ht => ht, Nat.le_add_right _ _⟩
    case isFalse hcond =>
      have hdep : st.depth ≤ maxDepth := by
        by_contra hgt
        push_neg at hgt
        exact hcond (by simp [decide_eq_true_eq, hgt])
      cases hps : processSites env re ls st.pending
          { st with temp := [], levels := st.levels ++ [st.pending] } with
      | ok st1 =>
        rw [hps] at h
        obtain ⟨htr, hlen⟩ := ih _ _ h
        have hfields := processSites_ok_fields env re ls st.pending _ st1 hps
        have htrace := processSites_ok_trace env re ls st.pending _ st1 hps
        constructor
        · intro ht
          apply htr
          simp only []
          rw [htrace, hfields.2.2]
          simp only []
          rw [ht, List.flatten_append]
          simp
        · have hd : st1.depth = st.depth := hfields.2.1
          have hl : st1.levels = st.levels ++ [st.pending] := hfields.2.2
          simp only [hd, hl] at hlen
          simp only [List.length_append, List.length_singleton] at hlen
          omega
      | fail e st1 => rw [hps] at h; cases h
      | crashed st1 => rw [hps] at h; cases h
      | fuelOut => exact absurd hps (processSites_ne_fuelOut env re ls _ _)

theorem scrapePrep_ok_inv (env : CrawlEnv) (sd : SiteDefinition)
    (selectors : List (String × Selector × List String)) (seed : String)
    (re : Option (String → Bool)) (ls : Selector)
    (h : scrapePrep env sd = .ok (selectors, seed, re, ls)) :
    compileSelectors sd.searches = some selectors ∧
    normalize_url sd.url = some seed ∧
    ls = Selector.tagAttr "a" "href" ∧
    (sd.follow_links = none → re = none) := by
  have hahref : Selector.parse "a[href]" = some (Selector.tagAttr "a" "href") := by rfl
  unfold scrapePrep at h
  split at h
  · cases h
  case h_2 selectors' hsel =>
    split at h
    · cases h
    case h_2 seed' hurl =>
      split at h
      case h_1 pat hfl =>
        split at h
        · cases h
        case h_2 re' hre =>
          split at h
          · cases h
          case h_2 ls' hls =>
            rw [hahref] at hls
            simp only [Outcome.ok.injEq, Prod.mk.injEq] at h
            obtain ⟨h1, h2, h3, h4⟩ := h
            rw [Option.some.injEq] at hls
            subst h1; subst h2; subst h4
            refine ⟨hsel, hurl, hls.symm, ?_⟩
            intro hnone
            rw [hnone] at hfl
            cases hfl
      case h_2 hfl =>
        split at h
        · cases h
        case h_2 ls' hls =>
          rw [hahref] at hls
          simp only [Outcome.ok.injEq, Prod.mk.injEq] at h
          obtain ⟨h1, h2, h3, h4⟩ := h
          rw [Option.some.injEq] at hls
          subst h1; subst h2; subst h4
          exact ⟨hsel, hurl, hls.symm, fun _ => h3.symm⟩

theorem processSites_no_regex (env : CrawlEnv) (ls : Selector) :
    ∀ (sites : List String) (st st' : CrawlState),
    processSites env none ls sites st = .ok st' → st'.temp = st.temp := by
  intro sites
  induction sites with
  | nil =>
    intro st st' h
    unfold processSites at h
    cases h
    rfl
  | cons site rest ih =>
    intro st st' h
    unfold processSites at h
    split at h
    · cases h
    · split at h
      · cases h
      · have h2 := ih _ _ h
        rw [h2]
        simp only [extractLinks_no_regex]
        rfl

theorem processSites_ok_visited (env : CrawlEnv) (re : Option (String → Bool))
    (ls : Selector) :
    ∀ (sites : List String) (st st' : CrawlState),
    processSites env re ls sites st = .ok st' →
    st'.visited = setExtendList st.visited sites := by
  intro sites
  induction sites with
  | nil =>
    intro st st' h
    unfold processSites at h
    cases h
    rfl
  | cons site rest ih =>
    intro st st' h
    unfold processSites at h
    split at h
    · cases h
    · split at h
      · cases h
      · exact ih _ _ h

/-- One-step unfolding of the fueled depth-level loop. -/
theorem crawlLoop_succ (env : CrawlEnv) (re : Option (String → Bool))
    (ls : Selector) (maxDepth fuel : Nat) (st : CrawlState) :
    crawlLoop env re ls maxDepth (fuel + 1) st =
    if st.pending.isEmpty || decide (st.depth > maxDepth) then
      .ok { st with temp := [] }
    else
      match processSites env re ls st.pending
          { st with temp := [], levels := st.levels ++ [st.pending] } with
      | .ok st1 =>
        crawlLoop env re ls maxDepth fuel
          { st1 with pending := st1.temp, depth := st1.depth + 1 }
      | r => r := rfl

/-- C5: when `followLinks` is absent the crawl fetches and visits
exactly one page, the normalized seed, for every value of `maxDepth`
and regardless of what links the seed page contains: the link extractor
keeps no candidates (`map_or(false, ..)`), so the second frontier is
empty and the loop stops. -/
theorem no_follow_seed_only (env : CrawlEnv) (sd : SiteDefinition)
    (st' : CrawlState) (hnf : sd.follow_links = none)
    (h : scrapeLoopRes env sd = some (.ok st')) :
    ∃ seed, normalize_url sd.url = some seed ∧ st'.trace = [seed] ∧
      st'.visited = [seed] := by
  unfold scrapeLoopRes at h
  split at h
  case h_2 => cases h
  case h_1 x selectors seed re ls heq =>
    obtain ⟨hsel, hurl, hls, hre⟩ := scrapePrep_ok_inv env sd selectors seed re ls heq
    have hnone : re = none := hre hnf
    subst hnone
    simp only [Option.some.injEq] at h
    refine ⟨seed, hurl, ?_⟩
    rw [show sd.max_depth.getD 0 + 2 = (sd.max_depth.getD 0 + 1) + 1 from rfl,
      crawlLoop_succ] at h
    rw [if_neg (by simp [initState])] at h
    simp only [initState, List.nil_append] at h
    cases hps : processSites env none ls [seed]
        { pending := [seed], temp := [], visited := [], cache := [],
          depth := 0, trace := [], levels := [[seed]] } with
    | ok st1 =>
      rw [hps] at h
      have htemp : st1.temp = [] := processSites_no_regex env ls _ _ _ hps
      have htrace : st1.trace = [seed] :=
        processSites_ok_trace env none ls _ _ _ hps
      have hvis : st1.visited = [seed] :=
        processSites_ok_visited env none ls _ _ _ hps
      have h2 : crawlLoop env none ls (sd.max_depth.getD 0)
          (sd.max_depth.getD 0 + 1)
          { st1 with pending := st1.temp, depth := st1.depth + 1 } =
          .ok st' := h
      rw [crawlLoop_succ, if_pos (by simp [htemp])] at h2
      cases h2
      exact ⟨htrace, hvis⟩
    | fail e st1 => rw [hps] at h; cases h
    | crashed st1 => rw [hps] at h; cases h
    | fuelOut => exact absurd hps (processSites_ne_fuelOut env none ls _ _)

/-- Witness for C5 at the Example 1 fixture: the crawl visits exactly
the normalized seed. -/
theorem no_follow_seed_only_witness :
    ∃ seed, normalize_url sdTitle.url = some seed ∧
      stTitleFinal.trace = [seed] ∧ stTitleFinal.visited = [seed] :=
  no_follow_seed_only envTitle sdTitle stTitleFinal (by rfl) (by rfl)

/-- C6: depth bounding.  For every job that reaches the crawl loop and
completes it, at most `maxDepth + 1` depth levels run; the fetch trace
is exactly the concatenation of the recorded per-level frontiers, so
every fetched page belongs to a frontier of level ≤ `maxDepth` — no
page first discovered at BFS depth greater than `maxDepth` is ever
fetched.  With `maxDepth = 0` the fetch trace is exactly the normalized
seed, so the result reflects extraction from the seed page only,
regardless of `followLinks`. -/
theorem depth_bound (env : CrawlEnv) (sd : SiteDefinition) (st' : CrawlState)
    (h : scrapeLoopRes env sd = some (.ok st')) :
    st'.levels.length ≤ sd.max_depth.getD 0 + 1 ∧
    st'.trace = st'.levels.flatten ∧
    (sd.max_depth.getD 0 = 0 → ∃ seed, normalize_url sd.url = some seed ∧
      st'.trace = [seed]) := by
  unfold scrapeLoopRes at h
  split at h
  case h_2 => cases h
  case h_1 x selectors seed re ls heq =>
    obtain ⟨hsel, hurl, hls, hre⟩ := scrapePrep_ok_inv env sd selectors seed re ls heq
    simp only [Option.some.injEq] at h
    obtain ⟨hjoin, hlen⟩ :=
      crawlLoop_ok_invariants env re ls (sd.max_depth.getD 0) _ _ _ h
    refine ⟨by simpa [initState] using hlen, hjoin (by rfl), ?_⟩
    intro hd0
    refine ⟨seed, hurl, ?_⟩
    rw [hd0] at h
    rw [show (0 : Nat) + 2 = 1 + 1 from rfl, crawlLoop_succ] at h
    rw [if_neg (by simp [initState])] at h
    simp only [initState, List.nil_append] at h
    cases hps : processSites env re ls [seed]
        { pending := [seed], temp := [], visited := [], cache := [],
          depth := 0, trace := [], levels := [[seed]] } with
    | ok st1 =>
      rw [hps] at h
      have htrace : st1.trace = [seed] :=
        processSites_ok_trace env re ls _ _ _ hps
      have hdep : st1.depth = 0 :=
        (processSites_ok_fields env re ls _ _ _ hps).2.1
      have h2 : crawlLoop env re ls 0 (0 + 1)
          { st1 with pending := st1.temp, depth := st1.depth + 1 } =
          .ok st' := h
      rw [crawlLoop_succ, if_pos (by simp [hdep])] at h2
      cases h2
      exact htrace
    | fail e st1 => rw [hps] at h; cases h
    | crashed st1 => rw [hps] at h; cases h
    | fuelOut => exact absurd hps (processSites_ne_fuelOut env re ls _ _)

/-- Witness for C6 at the Example 1 fixture job (`maxDepth = 0`). -/
theorem depth_bound_witness :
    stTitleFinal.levels.length ≤ sdTitle.max_depth.getD 0 + 1 ∧
    stTitleFinal.trace = stTitleFinal.levels.flatten ∧
    (sdTitle.max_depth.getD 0 = 0 → ∃ seed,
      normalize_url sdTitle.url = some seed ∧ stTitleFinal.trace = [seed]) :=
  depth_bound envTitle sdTitle stTitleFinal (by rfl)

/-- C7: a fetch failure during crawling aborts the whole job.  If the
seed page fetches and parses fine and yields exactly one followable
link, but fetching that link fails with error `e` at the next depth
level, then the handler's result is `.err e`: no value table is
produced, even though the seed page was already fetched, processed and
cached — and the fetch oracle is consulted only once for the failing
URL (no retry), as the crawl aborts at the first failure. -/
theorem fetch_failure_aborts (env : CrawlEnv) (sd : SiteDefinition)
    (selectors : List (String × Selector × List String)) (seed link e : String)
    (re : Option (String → Bool)) (ls : Selector) (page : Node) (hp : URLRec)
    (hprep : scrapePrep env sd = .ok (selectors, seed, re, ls))
    (hd : 1 ≤ sd.max_depth.getD 0)
    (hfetch : env.fetch seed = .ok page)
    (hparse : parseUrl seed = some hp)
    (hlinks : extractLinks page hp re [] ls = [link])
    (hfail : env.fetch link = .error e) :
    scrape env sd = .err e := by
  have hps : processSites env re ls [seed]
      { pending := [seed], temp := [], visited := [], cache := [],
        depth := 0, trace := [], levels := [[seed]] } =
      .ok { pending := [seed], temp := [link], visited := [seed],
            cache := [page], depth := 0, trace := [seed],
            levels := [[seed]] } := by
    unfold processSites
    simp only [hfetch, hparse, hlinks]
    rfl
  have hps2 : processSites env re ls [link]
      { pending := [link], temp := [], visited := [seed], cache := [page],
        depth := 1, trace := [seed], levels := [[seed], [link]] } =
      .fail e { pending := [link], temp := [], visited := [seed],
                cache := [page], depth := 1, trace := [seed, link],
                levels := [[seed], [link]] } := by
    unfold processSites
    simp only [hfail]
    rfl
  have hcl : crawlLoop env re ls (sd.max_depth.getD 0) (sd.max_depth.getD 0 + 2)
      (initState seed) =
      .fail e { pending := [link], temp := [], visited := [seed],
                cache := [page], depth := 1, trace := [seed, link],
                levels := [[seed], [link]] } := by
    rw [show sd.max_depth.getD 0 + 2 = (sd.max_depth.getD 0 + 1) + 1 from rfl,
      crawlLoop_succ]
    rw [if_neg (by simp [initState])]
    show (match processSites env re ls [seed]
        { pending := [seed], temp := [], visited := [], cache := [],
          depth := 0, trace := [], levels := [[seed]] } with
      | .ok st1 =>
        crawlLoop env re ls (sd.max_depth.getD 0) (sd.max_depth.getD 0 + 1)
          { st1 with pending := st1.temp, depth := st1.depth + 1 }
      | r => r) = _
    rw [hps]
    show crawlLoop env re ls (sd.max_depth.getD 0) (sd.max_depth.getD 0 + 1)
        { pending := [link], temp := [link], visited := [seed], cache := [page],
          depth := 1, trace := [seed], levels := [[seed]] } = _
    rw [crawlLoop_succ]
    rw [if_neg (by
      simp only [List.isEmpty_cons, Bool.false_or, decide_eq_true_eq]
      omega)]
    show (match processSites env re ls [link]
        { pending := [link], temp := [], visited := [seed], cache := [page],
          depth := 1, trace := [seed], levels := [[seed], [link]] } with
      | .ok st1 =>
        crawlLoop env re ls (sd.max_depth.getD 0) (sd.max_depth.getD 0)
          { st1 with pending := st1.temp, depth := st1.depth + 1 }
      | r => r) = _
    rw [hps2]
  unfold scrape
  rw [hprep]
  simp only [hcl]

/-- Witness for C7 at the two-page fixture: the seed fetch succeeds, the
discovered link `http://a.com/b` fails with `boom`, the whole request
fails with that error and no extraction output is produced. -/
theorem fetch_failure_aborts_witness :
    scrape envLinkFails sdLinkFails = .err "boom" :=
  fetch_failure_aborts envLinkFails sdLinkFails
    [("title", Selector.tagName "title", ["#TextContent"])]
    "http://a.com/" "http://a.com/b" "boom" (some (fun _ => true))
    (Selector.tagAttr "a" "href") docLink urlBase
    (by rfl) (by decide) (by rfl) (by rfl) (by rfl) (by rfl)

/-! ## Selector compilation failure (claim C3) -/

theorem compileSelectors_none_of_bad (searches : List Search) (s : Search)
    (hmem : s ∈ searches) (hbad : Selector.parse s.selector = none) :
    compileSelectors searches = none := by
  induction searches with
  | nil => cases hmem
  | cons a rest ih =>
    unfold compileSelectors
    rcases List.mem_cons.mp hmem with rfl | hmem2
    · rw [hbad]
    · cases hp : Selector.parse a.selector with
      | none => rfl
      | some sel => simp [ih hmem2]

/-- C3 (amended): a job containing a SearchRule with a syntactically
invalid selector string aborts before any fetch is performed — the
outcome is the same for every fetch environment — but it aborts via a
panic (`Selector::parse(..).unwrap()`, src/lib.rs line 104), not via an
`Error` result returned to the caller as the claim states. -/
theorem invalid_selector_panics (env : CrawlEnv) (sd : SiteDefinition)
    (h : ∃ s ∈ sd.searches, Selector.parse s.selector = none) :
    scrape env sd = Outcome.crashed := by
  obtain ⟨s, hmem, hbad⟩ := h
  have hc : compileSelectors sd.searches = none :=
    compileSelectors_none_of_bad sd.searches s hmem hbad
  unfold scrape scrapePrep
  rw [hc]

/-- Witness for the amended C3 at the invalid-selector fixture job. -/
theorem invalid_selector_panics_witness :
    scrape envEmpty sdBadSel = Outcome.crashed :=
  invalid_selector_panics envEmpty sdBadSel
    ⟨{ selector := "?!", attributes := ["x"] }, List.mem_singleton.mpr rfl, by rfl⟩

/-- Counterexample to C3 as stated: the invalid-selector job `sdBadSel`
makes the handler panic (`Outcome.crashed`, the model of the `.unwrap()`
on `Selector::parse`), which is not an `Error` result reported to the
caller: for every error message `e`, the outcome differs from
`Outcome.err e`. -/
theorem invalid_selector_cex :
    scrape envEmpty sdBadSel = Outcome.crashed ∧
    ∀ e, scrape envEmpty sdBadSel ≠ Outcome.err e := by
  constructor
  · rfl
  · intro e h
    rw [show scrape envEmpty sdBadSel = Outcome.crashed from rfl] at h
    cases h

/-! ## Link classification (claim C8) -/

/-- C8 (amended): link classification inspects `link.get(..1)`, the
first *byte* of the href.  When the href is non-empty and its first
character is a single UTF-8 byte, classification follows the claim:
`/` resolves against the source page's scheme and authority, `#` is
discarded, anything else is kept as a literal candidate.  But an empty
href, or one whose first character is multi-byte (where byte index 1 is
not a character boundary, so `get(..1)` returns `None`), is discarded —
not treated as a literal absolute-URL candidate. -/
theorem classify_by_first_byte (hp : URLRec) (link : String) :
    (link.data = [] → classifyHref hp link = none) ∧
    (∀ c cs, link.data = c :: cs → c.utf8Size ≠ 1 → classifyHref hp link = none) ∧
    (∀ cs, link.data = '/' :: cs →
      classifyHref hp link = some (hp.joinSlash link).toString) ∧
    (∀ cs, link.data = '#' :: cs → classifyHref hp link = none) ∧
    (∀ c cs, link.data = c :: cs → c.utf8Size = 1 → c ≠ '/' → c ≠ '#' →
      classifyHref hp link = some link) := by
  refine ⟨?_, ?_, ?_, ?_, ?_⟩
  · intro hd
    unfold classifyHref strGetFirst
    rw [hd]
  · intro c cs hd hsz
    unfold classifyHref strGetFirst
    rw [hd]
    have hf : (c.utf8Size == 1) = false := by
      rw [beq_eq_false_iff_ne]
      exact hsz
    simp [hf]
  · intro cs hd
    unfold classifyHref strGetFirst
    rw [hd]
    rfl
  · intro cs hd
    unfold classifyHref strGetFirst
    rw [hd]
    rfl
  · intro c cs hd hsz hc1 hc2
    unfold classifyHref strGetFirst
    rw [hd]
    have ht : (c.utf8Size == 1) = true := beq_iff_eq.mpr hsz
    have hne1 : (String.mk [c] == "/") = false := by
      rw [beq_eq_false_iff_ne]
      intro hcontra
      exact hc1 (by
        have h2 := congrArg String.data hcontra
        simpa using h2)
    have hne2 : (String.mk [c] == "#") = false := by
      rw [beq_eq_false_iff_ne]
      intro hcontra
      exact hc2 (by
        have h2 := congrArg String.data hcontra
        simpa using h2)
    simp [ht, hne1, hne2]

/-- Witness for the amended C8 at one concrete href of each class:
origin-relative, fragment-only, literal, empty, multi-byte first
character. -/
theorem classify_by_first_byte_witness :
    classifyHref urlBase "" = none ∧
    classifyHref urlBase "żx" = none ∧
    classifyHref urlBase "/a?b" = some (urlBase.joinSlash "/a?b").toString ∧
    classifyHref urlBase "#f" = none ∧
    classifyHref urlBase "mailto:x" = some "mailto:x" :=
  ⟨(classify_by_first_byte urlBase "").1 (by rfl),
   (classify_by_first_byte urlBase "żx").2.1 'ż' "x".data (by rfl) (by decide),
   (classify_by_first_byte urlBase "/a?b").2.2.1 "a?b".data (by rfl),
   (classify_by_first_byte urlBase "#f").2.2.2.1 "f".data (by rfl),
   (classify_by_first_byte urlBase "mailto:x").2.2.2.2 'm' "ailto:x".data
     (by rfl) (by decide) (by decide) (by decide)⟩

/-- Counterexample to C8 as stated: the href `über.com` has a multi-byte
first character; the claim says it is treated as a literal absolute-URL
candidate (`some "über.com"`), but the code's `link.get(..1)` returns
`None` and the href is discarded. -/
theorem classify_multibyte_cex :
    classifyHref urlBase "über.com" = none ∧
    classifyHref urlBase "über.com" ≠ some "über.com" := by
  constructor
  · rfl
  · intro h
    rw [show classifyHref urlBase "über.com" = none from rfl] at h
    cases h

/-! ## Association-list lemmas -/

theorem alistModifyM_keys {α : Type} :
    ∀ (m : List (String × α)) (k : String) (f : α → Option α)
      (m' : List (String × α)),
    alistModifyM m k f = some m' → m'.map Prod.fst = m.map Prod.fst := by
  intro m
  induction m with
  | nil => intro k f m' h; cases h
  | cons p rest ih =>
    intro k f m' h
    obtain ⟨k', v⟩ := p
    unfold alistModifyM at h
    split at h
    case isTrue heq =>
      cases hf : f v with
      | none => rw [hf] at h; cases h
      | some v' =>
        rw [hf] at h
        simp only [Option.map_some', Option.some.injEq] at h
        subst h
        simp
    case isFalse hne =>
      cases hrec : alistModifyM rest k f with
      | none => rw [hrec] at h; cases h
      | some rest' =>
        rw [hrec] at h
        simp only [Option.map_some', Option.some.injEq] at h
        subst h
        simp only [List.map_cons, List.cons.injEq]
        exact ⟨trivial, ih k f rest' hrec⟩

theorem alistModifyM_get_same {α : Type} :
    ∀ (m : List (String × α)) (k : String) (f : α → Option α)
      (m' : List (String × α)),
    alistModifyM m k f = some m' →
    ∃ v v', alistGet m k = some v ∧ f v = some v' ∧ alistGet m' k = some v' := by
  intro m
  induction m with
  | nil => intro k f m' h; cases h
  | cons p rest ih =>
    intro k f m' h
    obtain ⟨k', v⟩ := p
    unfold alistModifyM at h
    split at h
    case isTrue heq =>
      cases hf : f v with
      | none => rw [hf] at h; cases h
      | some v' =>
        rw [hf] at h
        simp only [Option.map_some', Option.some.injEq] at h
        subst h
        refine ⟨v, v', ?_, hf, ?_⟩
        · unfold alistGet; rw [if_pos heq]
        · unfold alistGet; rw [if_pos heq]
    case isFalse hne =>
      cases hrec : alistModifyM rest k f with
      | none => rw [hrec] at h; cases h
      | some rest' =>
        rw [hrec] at h
        simp only [Option.map_some', Option.some.injEq] at h
        subst h
        obtain ⟨v0, v0', hg, hf, hg'⟩ := ih k f rest' hrec
        refine ⟨v0, v0', ?_, hf, ?_⟩
        · unfold alistGet; rw [if_neg hne]; exact hg
        · unfold alistGet; rw [if_neg hne]; exact hg'

theorem alistModifyM_get_other {α : Type} :
    ∀ (m : List (String × α)) (k : String) (f : α → Option α)
      (m' : List (String × α)) (k2 : String),
    alistModifyM m k f = some m' → k2 ≠ k →
    alistGet m' k2 = alistGet m k2 := by
  intro m
  induction m with
  | nil => intro k f m' k2 h; cases h
  | cons p rest ih =>
    intro k f m' k2 h hne2
    obtain ⟨k', v⟩ := p
    unfold alistModifyM at h
    split at h
    case isTrue heq =>
      cases hf : f v with
      | none => rw [hf] at h; cases h
      | some v' =>
        rw [hf] at h
        simp only [Option.map_some', Option.some.injEq] at h
        subst h
        unfold alistGet
        rw [if_neg (by rw [heq]; exact fun hc => hne2 hc.symm),
          if_neg (by rw [heq]; exact fun hc => hne2 hc.symm)]
    case isFalse hne =>
      cases hrec : alistModifyM rest k f with
      | none => rw [hrec] at h; cases h
      | some rest' =>
        rw [hrec] at h
        simp only [Option.map_some', Option.some.injEq] at h
        subst h
        unfold alistGet
        by_cases hk2 : k' = k2
        · rw [if_pos hk2, if_pos hk2]
        · rw [if_neg hk2, if_neg hk2]
          exact ih k f rest' k2 hrec hne2

theorem alistGet_mem_keys {α : Type} :
    ∀ (m : List (String × α)) (k : String),
    (∃ v, alistGet m k = some v) ↔ k ∈ m.map Prod.fst := by
  intro m
  induction m with
  | nil => intro k; simp [alistGet]
  | cons p rest ih =>
    intro k
    obtain ⟨k', v⟩ := p
    unfold alistGet
    by_cases hk : k' = k
    · subst hk
      simp
    · rw [if_neg hk]
      simp only [List.map_cons, List.mem_cons]
      rw [ih k]
      constructor
      · exact Or.inr
      · rintro (rfl | hmem)
        · exact absurd rfl hk
        · exact hmem

/-! ## Bucket monotonicity of the selector engine -/

theorem bucketsMono_refl (r : Results) : bucketsMono r r :=
  fun _ g hg => ⟨g, hg, fun _ s hs => ⟨s, hs, fun _ hx => hx⟩⟩

theorem bucketsMono_trans (a b c : Results) (h1 : bucketsMono a b)
    (h2 : bucketsMono b c) : bucketsMono a c := by
  intro k g hg
  obtain ⟨g1, hg1, hin1⟩ := h1 k g hg
  obtain ⟨g2, hg2, hin2⟩ := h2 k g1 hg1
  refine ⟨g2, hg2, ?_⟩
  intro a2 s hs
  obtain ⟨s1, hs1, hsub1⟩ := hin1 a2 s hs
  obtain ⟨s2, hs2, hsub2⟩ := hin2 a2 s1 hs1
  exact ⟨s2, hs2, fun x hx => hsub2 x (hsub1 x hx)⟩

theorem resolveAttr_superset (env : CrawlEnv) (el : Node) (a : String)
    (s : List String) (x : String) (h : x ∈ s) : x ∈ resolveAttr env el a s := by
  unfold resolveAttr
  split
  · exact (mem_setInsert _ _ _).mpr (Or.inl h)
  · split
    · exact (mem_setInsert _ _ _).mpr (Or.inl h)
    · split
      · exact (mem_setInsert _ _ _).mpr (Or.inl h)
      · split
        · exact (mem_setInsert _ _ _).mpr (Or.inl h)
        · split
          · exact (mem_setInsert _ _ _).mpr (Or.inl h)
          · exact h

theorem resolveAttr_textContent (env : CrawlEnv) (el : Node) (s : List String) :
    el.textContent ∈ resolveAttr env el "#TextContent" s := by
  unfold resolveAttr
  rw [if_pos rfl]
  exact (mem_setInsert _ _ _).mpr (Or.inr rfl)

theorem attrFold_mono (env : CrawlEnv) (el : Node) (attrs : List String) :
    ∀ (g g' : List (String × List String)), attrFold env el attrs g = some g' →
    g'.map Prod.fst = g.map Prod.fst ∧
    ∀ a s, alistGet g a = some s → ∃ s', alistGet g' a = some s' ∧
      ∀ x ∈ s, x ∈ s' := by
  intro g g' h
  refine foldlM_option_invariant
    (fun g g' => g'.map Prod.fst = g.map Prod.fst ∧
      ∀ a s, alistGet g a = some s → ∃ s', alistGet g' a = some s' ∧
        ∀ x ∈ s, x ∈ s')
    ?_ ?_ _ ?_ attrs g g' h
  · intro a b c hab hbc
    refine ⟨hbc.1.trans hab.1, ?_⟩
    intro k s hs
    obtain ⟨s1, hs1, hsub1⟩ := hab.2 k s hs
    obtain ⟨s2, hs2, hsub2⟩ := hbc.2 k s1 hs1
    exact ⟨s2, hs2, fun x hx => hsub2 x (hsub1 x hx)⟩
  · exact fun a => ⟨rfl, fun _ s hs => ⟨s, hs, fun _ hx => hx⟩⟩
  · intro b a b' hstep
    refine ⟨alistModifyM_keys _ _ _ _ hstep, ?_⟩
    intro k s hs
    by_cases hk : k = a
    · subst hk
      obtain ⟨v, v', hg, hf, hg'⟩ := alistModifyM_get_same _ _ _ _ hstep
      rw [hs] at hg
      injection hg with hv
      subst hv
      simp only [Option.some.injEq] at hf
      refine ⟨v', hg', ?_⟩
      intro x hx
      rw [← hf]
      exact resolveAttr_superset env el k s x hx
    · rw [alistModifyM_get_other _ _ _ _ k hstep hk]
      exact ⟨s, hs, fun _ hx => hx⟩

theorem attrFold_textContent (env : CrawlEnv) (el : Node) :
    ∀ (attrs : List String) (g g' : List (String × List String)),
    attrFold env el attrs g = some g' → "#TextContent" ∈ attrs →
    ∃ s', alistGet g' "#TextContent" = some s' ∧ el.textContent ∈ s' := by
  intro attrs
  induction attrs with
  | nil => intro g g' h hmem; cases hmem
  | cons a rest ih =>
    intro g g' h hmem
    unfold attrFold at h
    rw [List.foldlM_cons] at h
    cases hstep : alistModifyM g a (fun set => some (resolveAttr env el a set)) with
    | none => rw [hstep] at h; exact absurd h (by simp)
    | some g1 =>
      rw [hstep] at h
      simp only [Option.bind_eq_bind, Option.some_bind] at h
      rcases List.mem_cons.mp hmem with rfl | hmem2
      · obtain ⟨v, v', hg, hf, hg'⟩ := alistModifyM_get_same _ _ _ _ hstep
        simp only [Option.some.injEq] at hf
        have hmemtc : el.textContent ∈ v' := by
          rw [← hf]
          exact resolveAttr_textContent env el v
        obtain ⟨hkeys, hmono⟩ := attrFold_mono env el rest g1 g' h
        obtain ⟨s', hs', hsub⟩ := hmono "#TextContent" v' hg'
        exact ⟨s', hs', hsub _ hmemtc⟩
      · exact ih g1 g' h hmem2

theorem elementStep_mono (env : CrawlEnv) (name : String) (attrs : List String) :
    ∀ (r : Results) (el : Node) (r' : Results),
    elementStep env name attrs r el = some r' → bucketsMono r r' := by
  intro r el r' h
  unfold elementStep at h
  intro k g hget
  by_cases hk : k = name
  · subst hk
    obtain ⟨v, v', hgetv, hf, hget'⟩ := alistModifyM_get_same _ _ _ _ h
    rw [hget] at hgetv
    injection hgetv with hv
    subst hv
    obtain ⟨hkeys, hmono⟩ := attrFold_mono env el attrs g v' hf
    exact ⟨v', hget', hmono⟩
  · rw [← alistModifyM_get_other _ _ _ _ k h hk] at hget
    exact ⟨g, hget, fun _ s hs => ⟨s, hs, fun _ hx => hx⟩⟩

theorem elementStep_textContent (env : CrawlEnv) (name : String)
    (attrs : List String) (r : Results) (el : Node) (r' : Results)
    (h : elementStep env name attrs r el = some r')
    (hattr : "#TextContent" ∈ attrs) :
    ∃ g s, alistGet r' name = some g ∧ alistGet g "#TextContent" = some s ∧
      el.textContent ∈ s := by
  unfold elementStep at h
  obtain ⟨v, v', hget, hf, hget'⟩ := alistModifyM_get_same _ _ _ _ h
  obtain ⟨s, hs, hmem⟩ := attrFold_textContent env el attrs v v' hf hattr
  exact ⟨v', s, hget', hs, hmem⟩

theorem elementsFold_mono (env : CrawlEnv) (name : String) (attrs : List String) :
    ∀ (els : List Node) (r r' : Results),
    els.foldlM (elementStep env name attrs) r = some r' → bucketsMono r r' :=
  foldlM_option_invariant bucketsMono bucketsMono_trans bucketsMono_refl _
    (fun r el r' h => elementStep_mono env name attrs r el r' h)

theorem elementsFold_textContent (env : CrawlEnv) (name : String)
    (attrs : List String) :
    ∀ (els : List Node) (r r' : Results),
    els.foldlM (elementStep env name attrs) r = some r' →
    "#TextContent" ∈ attrs →
    ∀ el ∈ els, ∃ g s, alistGet r' name = some g ∧
      alistGet g "#TextContent" = some s ∧ el.textContent ∈ s := by
  intro els
  induction els with
  | nil => intro r r' h hattr el hel; cases hel
  | cons e rest ih =>
    intro r r' h hattr el hel
    rw [List.foldlM_cons] at h
    cases hstep : elementStep env name attrs r e with
    | none => rw [hstep] at h; exact absurd h (by simp)
    | some r1 =>
      rw [hstep] at h
      simp only [Option.bind_eq_bind, Option.some_bind] at h
      rcases List.mem_cons.mp hel with rfl | hel2
      · obtain ⟨g, s, hg, hs, hmem⟩ :=
          elementStep_textContent env name attrs r el r1 hstep hattr
        obtain ⟨g', hg', hinner⟩ := elementsFold_mono env name attrs rest r1 r' h name g hg
        obtain ⟨s', hs', hsub⟩ := hinner "#TextContent" s hs
        exact ⟨g', s', hg', hs', hsub _ hmem⟩
      · exact ih r1 r' h hattr el hel2

/-- C1 (amended): the pseudo-attribute that resolves to the
concatenation of all descendant text is spelled `#TextContent` (the
code dispatches on `"#TextContent"`, src/lib.rs line 46), not
`TextContent` as the claim states.  For every page and every rule whose
attribute list contains `#TextContent`, running `resolve_selectors`
inserts, for each element matched by the rule's selector, the element's
full descendant text into the (selector, `#TextContent`) bucket. -/
theorem textContent_collected (env : CrawlEnv) (parsed : Node)
    (rule : String × Selector × List String) (r r' : Results)
    (hattr : "#TextContent" ∈ rule.2.2)
    (h : resolve_selectors env parsed [rule] r = some r') :
    ∀ el ∈ parsed.select rule.2.1, ∃ g s, alistGet r' rule.1 = some g ∧
      alistGet g "#TextContent" = some s ∧ el.textContent ∈ s := by
  unfold resolve_selectors at h
  rw [List.foldlM_cons] at h
  cases hstep : (parsed.select rule.2.1).foldlM
      (elementStep env rule.1 rule.2.2) r with
  | none => rw [hstep] at h; exact absurd h (by simp)
  | some r1 =>
    rw [hstep] at h
    simp only [Option.bind_eq_bind, Option.some_bind, List.foldlM_nil,
      Option.pure_def, Option.some.injEq] at h
    subst h
    exact elementsFold_textContent env rule.1 rule.2.2 _ r r1 hstep hattr

/-- Counterexample to C1 as stated: on the spec's own Example 1 — seed
page `<title>Example Domain</title>`, `searches = [{selector: "title",
attributes: ["TextContent"]}]` — the attribute spec `TextContent`
(without `#`) falls through to the literal-HTML-attribute branch, the
`title` element has no attribute of that name, and the bucket stays
empty: the response is `{"title": {"TextContent": []}}`, not
`{"title": {"TextContent": ["Example Domain"]}}` as the claim states. -/
theorem textContent_spec_cex :
    scrape envTitle sdTitle = .ok [("title", [("TextContent", [])])] ∧
    scrape envTitle sdTitle ≠
      .ok [("title", [("TextContent", ["Example Domain"])])] :=
  ⟨by rfl, by decide⟩

/-- Witness for the amended C1 at the Example 1 fixture, using the
pseudo-attribute name the code actually dispatches on. -/
theorem textContent_collected_witness :
    ∃ g s, alistGet [("title", [("#TextContent", ["Example Domain"])])]
        "title" = some g ∧
      alistGet g "#TextContent" = some s ∧ "Example Domain" ∈ s := by
  have h := textContent_collected envTitle docTitle
    ("title", Selector.tagName "title", ["#TextContent"])
    [("title", [("#TextContent", ([] : List String))])]
    [("title", [("#TextContent", ["Example Domain"])])]
    (by simp) (by rfl)
  have hmem : Node.elem "title" [] [Node.text "Example Domain"] ∈
      docTitle.select (Selector.tagName "title") := by
    rw [show docTitle.select (Selector.tagName "title") =
      [Node.elem "title" [] [Node.text "Example Domain"]] from rfl]
    exact List.mem_singleton.mpr rfl
  exact h _ hmem

/-! ## Result-table shape preservation (claim C4) -/

theorem resultsShape_cons (p : String × List (String × List String))
    (r : Results) :
    resultsShape (p :: r) = (p.1, p.2.map Prod.fst) :: resultsShape r := rfl

theorem alistModifyM_shape :
    ∀ (m : Results) (k : String)
      (f : List (String × List String) → Option (List (String × List String)))
      (m' : Results),
    (∀ g g', f g = some g' → g'.map Prod.fst = g.map Prod.fst) →
    alistModifyM m k f = some m' → resultsShape m' = resultsShape m := by
  intro m
  induction m with
  | nil => intro k f m' _ h; cases h
  | cons p rest ih =>
    intro k f m' hf h
    obtain ⟨k', v⟩ := p
    unfold alistModifyM at h
    split at h
    case isTrue heq =>
      cases hfv : f v with
      | none => rw [hfv] at h; cases h
      | some v' =>
        rw [hfv] at h
        simp only [Option.map_some', Option.some.injEq] at h
        subst h
        rw [resultsShape_cons, resultsShape_cons]
        dsimp only
        rw [hf v v' hfv]
    case isFalse hne =>
      cases hrec : alistModifyM rest k f with
      | none => rw [hrec] at h; cases h
      | some rest' =>
        rw [hrec] at h
        simp only [Option.map_some', Option.some.injEq] at h
        subst h
        rw [resultsShape_cons, resultsShape_cons]
        rw [ih k f rest' hf hrec]

theorem elementStep_shape (env : CrawlEnv) (name : String) (attrs : List String)
    (r : Results) (el : Node) (r' : Results)
    (h : elementStep env name attrs r el = some r') :
    resultsShape r' = resultsShape r := by
  unfold elementStep at h
  exact alistModifyM_shape r name _ r'
    (fun g g' hg => (attrFold_mono env el attrs g g' hg).1) h

theorem resolve_selectors_shape (env : CrawlEnv) (parsed : Node)
    (selectors : List (String × Selector × List String)) :
    ∀ (r r' : Results), resolve_selectors env parsed selectors r = some r' →
    resultsShape r' = resultsShape r := by
  intro r r' h
  refine foldlM_option_invariant (fun a b => resultsShape b = resultsShape a)
    (fun a b c h1 h2 => h2.trans h1) (fun _ => rfl) _ ?_ selectors r r' h
  intro b sel b' hstep
  refine foldlM_option_invariant (fun a b => resultsShape b = resultsShape a)
    (fun a b c h1 h2 => h2.trans h1) (fun _ => rfl) _ ?_ (parsed.select sel.2.1)
    b b' hstep
  intro b2 el b2' hstep2
  exact elementStep_shape env sel.1 sel.2.2 b2 el b2' hstep2

theorem cacheFold_shape (env : CrawlEnv)
    (selectors : List (String × Selector × List String)) :
    ∀ (docs : List Node) (r r' : Results),
    docs.foldlM (fun r doc => resolve_selectors env doc selectors r) r = some r' →
    resultsShape r' = resultsShape r := by
  intro docs r r' h
  refine foldlM_option_invariant (fun a b => resultsShape b = resultsShape a)
    (fun a b c h1 h2 => h2.trans h1) (fun _ => rfl) _ ?_ docs r r' h
  intro b doc b' hstep
  exact resolve_selectors_shape env doc selectors b b' hstep

theorem shape_eq_get :
    ∀ (r r' : Results), resultsShape r' = resultsShape r →
    ∀ k : String,
    ((∃ g, alistGet r' k = some g) ↔ (∃ g, alistGet r k = some g)) ∧
    (∀ g' g, alistGet r' k = some g' → alistGet r k = some g →
      g'.map Prod.fst = g.map Prod.fst) := by
  intro r
  induction r with
  | nil =>
    intro r' h k
    cases r' with
    | nil => exact ⟨Iff.rfl, fun g' g h1 _ => by cases h1⟩
    | cons p' rest' => simp [resultsShape] at h
  | cons p rest ih =>
    intro r' h k
    cases r' with
    | nil => simp [resultsShape] at h
    | cons p' rest' =>
      simp only [resultsShape, List.map_cons, List.cons.injEq, Prod.mk.injEq] at h
      obtain ⟨⟨hk1, hkeys⟩, hrest⟩ := h
      obtain ⟨hiff, hkeyeq⟩ := ih rest' hrest k
      constructor
      · unfold alistGet
        by_cases hk : p.1 = k
        · rw [if_pos hk, if_pos (by rw [hk1, hk])]
          simp
        · rw [if_neg hk, if_neg (by rw [hk1]; exact hk)]
          exact hiff
      · intro g' g hg' hg
        unfold alistGet at hg hg'
        by_cases hk : p.1 = k
        · rw [if_pos hk] at hg
          rw [if_pos (by rw [hk1, hk])] at hg'
          injection hg with hgv
          injection hg' with hgv'
          rw [← hgv, ← hgv']
          exact hkeys
        · rw [if_neg hk] at hg
          rw [if_neg (by rw [hk1]; exact hk)] at hg'
          exact hkeyeq g' g hg' hg

/-! ## Lookups in collected maps (`resultsInit`) -/

theorem alistGet_alistInsert_self {α : Type} (m : List (String × α))
    (k : String) (v : α) : alistGet (alistInsert m k v) k = some v := by
  induction m with
  | nil =>
    unfold alistInsert alistGet
    rw [if_pos rfl]
  | cons p rest ih =>
    obtain ⟨k', v'⟩ := p
    unfold alistInsert
    by_cases hk : k' = k
    · rw [if_pos hk]
      unfold alistGet
      rw [if_pos hk]
    · rw [if_neg hk]
      unfold alistGet
      rw [if_neg hk]
      exact ih

theorem alistGet_alistInsert_other {α : Type} (m : List (String × α))
    (k : String) (v : α) (k2 : String) (h : k2 ≠ k) :
    alistGet (alistInsert m k v) k2 = alistGet m k2 := by
  induction m with
  | nil =>
    unfold alistInsert alistGet
    rw [if_neg (Ne.symm h)]
    rfl
  | cons p rest ih =>
    obtain ⟨k', v'⟩ := p
    unfold alistInsert
    by_cases hk : k' = k
    · rw [if_pos hk]
      unfold alistGet
      by_cases hk2 : k' = k2
      · exact absurd (hk2.symm.trans hk) h
      · rw [if_neg hk2, if_neg hk2]
    · rw [if_neg hk]
      unfold alistGet
      by_cases hk2 : k' = k2
      · rw [if_pos hk2, if_pos hk2]
      · rw [if_neg hk2, if_neg hk2]
        exact ih

theorem alistGet_foldlInsert_mem {α : Type} :
    ∀ (l acc : List (String × α)) (k : String),
    (∃ v, alistGet (l.foldl (fun m kv => alistInsert m kv.1 kv.2) acc) k = some v)
      ↔ (∃ v, alistGet acc k = some v) ∨ k ∈ l.map Prod.fst := by
  intro l
  induction l with
  | nil => intro acc k; simp
  | cons p l ih =>
    intro acc k
    rw [List.foldl_cons, ih]
    by_cases hk : k = p.1
    · constructor
      · intro _
        exact Or.inr (List.mem_cons.mpr (Or.inl hk))
      · intro _
        left
        rw [hk]
        exact ⟨p.2, alistGet_alistInsert_self acc p.1 p.2⟩
    · rw [alistGet_alistInsert_other acc p.1 p.2 k hk]
      simp only [List.map_cons, List.mem_cons]
      constructor
      · rintro (h | h)
        · exact Or.inl h
        · exact Or.inr (Or.inr h)
      · rintro (h | h | h)
        · exact Or.inl h
        · exact absurd h hk
        · exact Or.inr h

theorem alistGet_foldlInsert_not_mem {α : Type} :
    ∀ (l acc : List (String × α)) (k : String), k ∉ l.map Prod.fst →
    alistGet (l.foldl (fun m kv => alistInsert m kv.1 kv.2) acc) k =
      alistGet acc k := by
  intro l
  induction l with
  | nil => intro acc k _; rfl
  | cons p l ih =>
    intro acc k hk
    simp only [List.map_cons, List.mem_cons] at hk
    push_neg at hk
    rw [List.foldl_cons, ih _ k hk.2]
    exact alistGet_alistInsert_other acc p.1 p.2 k hk.1

theorem alistGet_foldlInsert_of_nodup {α : Type} :
    ∀ (l acc : List (String × α)), (l.map Prod.fst).Nodup →
    ∀ (k : String) (v : α), (k, v) ∈ l →
    alistGet (l.foldl (fun m kv => alistInsert m kv.1 kv.2) acc) k = some v := by
  intro l
  induction l with
  | nil => intro acc _ k v hmem; cases hmem
  | cons p l ih =>
    intro acc hnd k v hmem
    obtain ⟨pk, pv⟩ := p
    simp only [List.map_cons, List.nodup_cons] at hnd
    rw [List.foldl_cons]
    rcases List.mem_cons.mp hmem with heq | hmem2
    · rw [Prod.mk.injEq] at heq
      obtain ⟨hk, hv⟩ := heq
      subst hk
      subst hv
      rw [alistGet_foldlInsert_not_mem l _ k hnd.1]
      exact alistGet_alistInsert_self acc k v
    · exact ih _ hnd.2 k v hmem2

theorem resultsInit_get (searches : List Search)
    (hdist : (searches.map (fun s => s.selector)).Nodup)
    (s : Search) (hs : s ∈ searches) :
    alistGet (resultsInit searches) s.selector =
      some (alistCollect (s.attributes.map (fun a => (a, ([] : List String))))) := by
  unfold resultsInit alistCollect
  apply alistGet_foldlInsert_of_nodup
  · rw [List.map_map]
    exact hdist
  · exact List.mem_map_of_mem _ hs

theorem resultsInit_keys (searches : List Search) (k : String) :
    (∃ g, alistGet (resultsInit searches) k = some g) ↔
    k ∈ searches.map (fun s => s.selector) := by
  unfold resultsInit alistCollect
  rw [alistGet_foldlInsert_mem]
  constructor
  · rintro (⟨v, hv⟩ | hmem)
    · exact Option.noConfusion hv
    · rw [List.map_map] at hmem
      exact hmem
  · intro hmem
    right
    rw [List.map_map]
    exact hmem

theorem innerInit_keys (s : Search) (a : String) :
    (∃ set, alistGet (alistCollect (s.attributes.map
      (fun a => (a, ([] : List String))))) a = some set) ↔ a ∈ s.attributes := by
  unfold alistCollect
  rw [alistGet_foldlInsert_mem]
  constructor
  · rintro (⟨v, hv⟩ | hmem)
    · exact Option.noConfusion hv
    · rw [List.map_map] at hmem
      simpa using hmem
  · intro hmem
    right
    rw [List.map_map]
    simpa using hmem

/-- C4 (amended): for every job whose SearchRules have pairwise-distinct
selector strings and that completes successfully, the response's outer
key set is exactly the declared selector strings and, for each rule, the
inner key set at its selector is exactly its declared attribute specs,
each mapped to a (possibly empty) set — extraction only ever updates
buckets in place, so the pre-populated shape survives.  (With two
SearchRules sharing a selector string the claim fails: the pre-populated
`HashMap` keeps only the last rule's inner map, so the first rule's
attribute keys are absent — see the counterexample.) -/
theorem response_shape (env : CrawlEnv) (sd : SiteDefinition) (r : Results)
    (hdist : (sd.searches.map (fun s => s.selector)).Nodup)
    (hok : scrape env sd = .ok r) :
    (∀ k, (∃ g, alistGet r k = some g) ↔
      k ∈ sd.searches.map (fun s => s.selector)) ∧
    (∀ s ∈ sd.searches, ∀ g, alistGet r s.selector = some g →
      ∀ a, (∃ set, alistGet g a = some set) ↔ a ∈ s.attributes) := by
  unfold scrape at hok
  split at hok
  · cases hok
  · cases hok
  · cases hok
  case h_4 selectors seed re ls heq =>
    cases hcl : crawlLoop env re ls (sd.max_depth.getD 0)
        (sd.max_depth.getD 0 + 2) (initState seed) with
    | fuelOut => rw [hcl] at hok; cases hok
    | fail e st => rw [hcl] at hok; cases hok
    | crashed st => rw [hcl] at hok; cases hok
    | ok st =>
      rw [hcl] at hok
      cases hfold : st.cache.foldlM
          (fun r2 doc => resolve_selectors env doc selectors r2)
          (resultsInit sd.searches) with
      | none => simp only [hfold] at hok; cases hok
      | some rfin =>
        simp only [hfold] at hok
        have hr : rfin = r := by
          cases hok
          rfl
        subst hr
        have hshape : resultsShape rfin = resultsShape (resultsInit sd.searches) :=
          cacheFold_shape env selectors st.cache _ rfin hfold
        constructor
        · intro k
          rw [(shape_eq_get (resultsInit sd.searches) rfin hshape k).1]
          exact resultsInit_keys sd.searches k
        · intro s hs g hg a
          have hginit := resultsInit_get sd.searches hdist s hs
          have hkeys := (shape_eq_get (resultsInit sd.searches) rfin hshape
            s.selector).2 g _ hg hginit
          rw [alistGet_mem_keys, hkeys, ← alistGet_mem_keys]
          exact innerInit_keys s a

/-- Witness for the amended C4 at the Example 1 fixture job (distinct
selectors, no matching elements): the response holds exactly the
declared (selector, attribute) pairs, each with an empty set. -/
theorem response_shape_witness :
    (∀ k, (∃ g, alistGet [("title", [("TextContent", ([] : List String))])] k
        = some g) ↔ k ∈ sdTitle.searches.map (fun s => s.selector)) ∧
    (∀ s ∈ sdTitle.searches, ∀ g,
      alistGet [("title", [("TextContent", ([] : List String))])] s.selector
        = some g →
      ∀ a, (∃ set, alistGet g a = some set) ↔ a ∈ s.attributes) :=
  response_shape envTitle sdTitle _ (by decide) (by rfl)

/-- Counterexample to C4 as stated: in the job `sdDup`, two SearchRules
share the selector string `title` with attribute lists `["x"]` and
`["y"]`.  The declared pair (`title`, `x`) is omitted from the
response: the initial `HashMap` collect keeps only the last rule's
inner map, so the response is `{"title": {"y": []}}` and the lookup of
attribute `x` under `title` yields nothing. -/
theorem response_shape_cex :
    scrape envEmpty sdDup = .ok [("title", [("y", [])])] ∧
    ({ selector := "title", attributes := ["x"] } : Search) ∈ sdDup.searches ∧
    alistGet [("title", [("y", ([] : List String))])] "title" =
      some [("y", [])] ∧
    alistGet [("y", ([] : List String))] "x" = none :=
  ⟨by rfl, List.mem_cons_self _ _, by rfl, by rfl⟩

end SiteScraper
